import Mathlib

set_option maxHeartbeats 2000000

/-!
Verification of the LLMsyzbot extraction pipeline core.

This file gives a shallow embedding, in Lean, of the pure core of the
repository's extraction pipeline — `logagents/core/sanitize.py`,
`logagents/core/policy.py`, `logagents/core/fallback.py`,
`logagents/core/chunking.py` and `logagents/core/ordering.py` — and proves
or refutes the specification's claims about it.

Python strings are modelled as Lean `String`s (lists of characters);
Python `re` patterns used by the code are hand-compiled to character-level
recognisers with the same semantics (leftmost match, greediness and
backtracking behaviour reproduced where observable).  Python integers are
modelled as `Int`/`Nat`; the one floating-point operation in the sources
(`int(x * 0.7)` in the scheduler) is modelled as exact truncated division
`(7 * x).tdiv 10`, which agrees with the float computation on all values
relevant here and is irrelevant to the claims proved about that function
(they only concern recursion depth).
-/

/-! ## Python string primitives -/

/-- Characters matched by Python's `str.isspace` / `re` class `\s`
(ASCII whitespace, the information separators, and the Unicode spaces). -/
def pySpace (c : Char) : Bool :=
  c = ' ' || c = '\t' || c = '\n' || c = '\r' || c = '\x0b' || c = '\x0c' ||
  c = '\x1c' || c = '\x1d' || c = '\x1e' || c = '\x1f' || c = '\x85' ||
  c = '\xa0' || c = '\u1680' || ('\u2000' ≤ c && c ≤ '\u200a') ||
  c = '\u2028' || c = '\u2029' || c = '\u202f' || c = '\u205f' || c = '\u3000'

/-- Line boundaries recognised by Python's `str.splitlines`. -/
def pyLineBreak (c : Char) : Bool :=
  c = '\n' || c = '\r' || c = '\x0b' || c = '\x0c' ||
  c = '\x1c' || c = '\x1d' || c = '\x1e' || c = '\x85' ||
  c = '\u2028' || c = '\u2029'

/-- Word characters for Python's `re` word boundary `\b`. -/
def pyWordChar (c : Char) : Bool :=
  c.isAlphanum || c = '_'

/-- Auxiliary scanner for `str.splitlines`: `acc` holds the current line
(reversed); a `\r\n` pair counts as a single boundary. -/
def pySplitAux : List Char → List Char → List String
  | acc, [] => if acc.isEmpty then [] else [String.mk acc.reverse]
  | acc, '\r' :: '\n' :: rest => String.mk acc.reverse :: pySplitAux [] rest
  | acc, c :: rest =>
    if pyLineBreak c then String.mk acc.reverse :: pySplitAux [] rest
    else pySplitAux (c :: acc) rest

/-- Python `str.splitlines`. -/
def pySplitlines (s : String) : List String := pySplitAux [] s.data

/-- Remove leading characters satisfying `p` (Python `str.lstrip`). -/
def lstripP (p : Char → Bool) (l : List Char) : List Char := l.dropWhile p

/-- Remove trailing characters satisfying `p` (Python `str.rstrip`). -/
def rstripP (p : Char → Bool) (l : List Char) : List Char :=
  (l.reverse.dropWhile p).reverse

/-- Python `str.strip` with an arbitrary character class. -/
def stripP (p : Char → Bool) (l : List Char) : List Char :=
  rstripP p (lstripP p l)

/-- Python `s.strip()` (whitespace strip). -/
def pyStrip (s : String) : String := String.mk (stripP pySpace s.data)

/-- Python `s.strip("\r")` as used by `sanitize_from_log`. -/
def stripCR (s : String) : String := String.mk (stripP (· = '\r') s.data)

/-- Python `s.rstrip("\r\n")` as used by `_normalize_line`. -/
def rstripRN (s : String) : String :=
  String.mk (rstripP (fun c => c = '\r' || c = '\n') s.data)

/-- List prefix test (used to compile regex literals). -/
def listPrefix : List Char → List Char → Bool
  | [], _ => true
  | _ :: _, [] => false
  | a :: as, b :: bs => a == b && listPrefix as bs

/-- Contiguous-sublist test; `listInfix n h` is Python `n in h`. -/
def listInfix : List Char → List Char → Bool
  | n, [] => listPrefix n []
  | n, h :: t => listPrefix n (h :: t) || listInfix n t

/-- Python substring test `needle in hay`. -/
def strContains (hay needle : String) : Bool := listInfix needle.data hay.data

/-- Replace each maximal run of whitespace by a single space
(`re.sub(r"\s+", " ", s)`): the flag records whether the previous
character was part of a whitespace run. -/
def wsCollapseAux (prevSpace : Bool) : List Char → List Char
  | [] => []
  | c :: rest =>
    if pySpace c then
      if prevSpace then wsCollapseAux true rest
      else ' ' :: wsCollapseAux true rest
    else c :: wsCollapseAux false rest

/-- The `_WS_MULTI` substitution on a character list. -/
def wsCollapseL (l : List Char) : List Char := wsCollapseAux false l

/-- String version of `wsCollapseL` (the `_WS_MULTI` substitution). -/
def wsCollapse (s : String) : String := String.mk (wsCollapseL s.data)

/-- One bracket group `\[[^\]]+\]` of the `_TS_PREFIX` pattern: expects
`[`, at least one non-`]` character, then `]`; returns the rest. -/
def parseBracket : List Char → Option (List Char)
  | '[' :: rest =>
    if (rest.takeWhile (· ≠ ']')).isEmpty then none
    else
      match rest.dropWhile (· ≠ ']') with
      | ']' :: after => some after
      | _ => none
  | _ => none

/-- The substitution `_TS_PREFIX.sub("", s)` on a character list: the
pattern `^\s*(\[[^\]]+\]\s*){1,2}` strips leading whitespace and one or
(greedily) two bracketed timestamp groups, each with trailing whitespace;
if no bracket group matches, the input is unchanged. -/
def tsStripL (l : List Char) : List Char :=
  match parseBracket (l.dropWhile pySpace) with
  | none => l
  | some r =>
    let r1 := r.dropWhile pySpace
    match parseBracket r1 with
    | none => r1
    | some q => q.dropWhile pySpace

/-- The `_TS_PREFIX.sub("", s)` substitution on strings. -/
def tsStrip (s : String) : String := String.mk (tsStripL s.data)

/-! ## sanitize.py -/

/-- The `_normalize_line` helper of `sanitize.py`: strip the timestamp
prefix, strip trailing CR/LF, collapse internal whitespace, strip. -/
def normalizeLine (s : String) : String :=
  pyStrip (wsCollapse (rstripRN (tsStrip s)))

/-- The `_normalize_text_block` helper of `sanitize.py`. -/
def normalizeTextBlock (s : String) : String :=
  String.intercalate "\n" ((pySplitlines s).map normalizeLine)

/-- The `sanitize_from_log` validator of `sanitize.py`: keep a line iff it
occurs verbatim in the log, or its normalized form is nonempty and occurs
in the line-wise normalized log. -/
def sanitize_from_log (extracted whole_log_text : String) : List String :=
  if extracted = "" then []
  else
    let normWhole := normalizeTextBlock whole_log_text
    (pySplitlines extracted).filterMap fun line =>
      let s := stripCR line
      if s = "" then none
      else if strContains whole_log_text s then some s
      else
        let ns := normalizeLine s
        if ns ≠ "" ∧ strContains normWhole ns = true then some s else none

/-- C1: grounding invariant of the validator — every line in the list
returned by `sanitize_from_log extracted whole_log_text` occurs in the
source log: it is a verbatim substring of `whole_log_text`, or its
timestamp/whitespace-normalized form is nonempty and is a substring of
the line-wise normalized `whole_log_text`; lines failing both checks do
not appear in the result.  Holds for every extracted text and log. -/
theorem sanitize_from_log_grounded (extracted whole_log_text l : String)
    (hl : l ∈ sanitize_from_log extracted whole_log_text) :
    strContains whole_log_text l = true ∨
      (normalizeLine l ≠ "" ∧
        strContains (normalizeTextBlock whole_log_text) (normalizeLine l) = true) := by
  unfold sanitize_from_log at hl
  split at hl
  · simp at hl
  · rw [List.mem_filterMap] at hl
    obtain ⟨line, -, h⟩ := hl
    dsimp only at h
    split_ifs at h with h1 h2 h3
    · obtain rfl : stripCR line = l := by injection h
      exact Or.inl h2
    · obtain rfl : stripCR line = l := by injection h
      exact Or.inr h3

/-- Witness for C1 at a concrete input: the line `abc` survives
sanitization against the log `xabc` and is indeed grounded in it. -/
theorem sanitize_from_log_grounded_witness :
    strContains "xabc" "abc" = true ∨
      (normalizeLine "abc" ≠ "" ∧
        strContains (normalizeTextBlock "xabc") (normalizeLine "abc") = true) :=
  sanitize_from_log_grounded "abc" "xabc" "abc" (by decide)

/-! ## policy.py -/

/-- ASCII lowercasing, used to compile the `re.I` flag. -/
def lowerStr (s : String) : String := String.mk (s.data.map Char.toLower)

/-- Case-insensitive substring search (`needle` given in lowercase). -/
def containsCI (hay needle : String) : Bool := strContains (lowerStr hay) needle

/-- The `SyzPolicy` configuration dataclass of `policy.py`. -/
structure SyzPolicy where
  call_trace_max : Nat := 25
  alloc_max : Nat := 80
  freed_max : Nat := 80
  buggy_max : Nat := 80
  mem_hex_max : Nat := 96
  diag_total_max : Nat := 400
  include_diag : Bool := false
  forbid_question_mark : Bool := true

/-- The default `tool_frames_rx` matcher of `SyzPolicy` — `re.search` of
`(dump_stack|kasan_report|__asan_|printk|__warn|report_bug|show_regs|warn_slowpath|__dump_stack|__traceiter_)`
with `re.I`. -/
def toolFrameDefault (s : String) : Bool :=
  containsCI s "dump_stack" || containsCI s "kasan_report" ||
  containsCI s "__asan_" || containsCI s "printk" || containsCI s "__warn" ||
  containsCI s "report_bug" || containsCI s "show_regs" ||
  containsCI s "warn_slowpath" || containsCI s "__dump_stack" ||
  containsCI s "__traceiter_"

/-- The `_normalize_for_match` helper of `ordering.py` (timestamp strip,
whitespace collapse, strip); `policy.py` imports it as `_norm`. -/
def normalizeForMatch (s : String) : String := pyStrip (wsCollapse (tsStrip s))

/-- Blank-line test `_RX["BLANK"]` (`^\s*$`), equivalently: the stripped
line is empty. -/
def isBlankLine (s : String) : Bool := pyStrip s = ""

/-- Blank compression with a `prev_blank` flag, as inlined both in
`_compact_blank_lines` and in `apply_syzbot_policy`: a run of blank lines
becomes one empty line, other lines pass through. -/
def compressAux (pb : Bool) : List String → List String
  | [] => []
  | ln :: rest =>
    if isBlankLine ln then
      if pb then compressAux true rest else "" :: compressAux true rest
    else ln :: compressAux false rest

/-- Drop leading blank lines (the leading `while ... pop(0)` loop). -/
def dropLeadBlank (l : List String) : List String :=
  l.dropWhile (fun ln => isBlankLine ln)

/-- Drop trailing blank lines (the trailing `while ... pop()` loop). -/
def dropTailBlank (l : List String) : List String :=
  (l.reverse.dropWhile (fun ln => isBlankLine ln)).reverse

/-- The `_compact_blank_lines` helper of `policy.py`. -/
def compactBlankLines (lines : List String) : List String :=
  dropTailBlank (dropLeadBlank (compressAux false lines))

/-- Loop body of `_trim_call_trace` after the header line: skip tool
frames until a real frame starts the count, then append frames while
`len(out) - 1 < max_frames`; a blank line stops the scan.  `outLen`
tracks `len(out)`. -/
def trimAux (tool : String → Bool) (maxF : Nat) :
    Bool → Nat → List String → List String
  | _, _, [] => []
  | started, outLen, ln :: rest =>
    if isBlankLine ln then []
    else if started = false then
      if tool (normalizeForMatch ln) then trimAux tool maxF started outLen rest
      else ln :: trimAux tool maxF true (outLen + 1) rest
    else if maxF ≤ outLen - 1 then []
    else ln :: trimAux tool maxF true (outLen + 1) rest

/-- The `_trim_call_trace` helper of `policy.py`, with the compiled
`tool_rx` matcher passed as a function.  Note that `apply_syzbot_policy`
as implemented never calls it. -/
def trimCallTrace (tool : String → Bool) (maxF : Nat)
    (call_lines : List String) : List String :=
  match call_lines with
  | [] => []
  | first :: rest => compactBlankLines (first :: trimAux tool maxF false 1 rest)

/-- Question-mark filter of `apply_syzbot_policy`: a line is dropped when
it contains an ASCII or full-width question mark. -/
def hasQuestionMark (s : String) : Bool :=
  s.data.contains '?' || s.data.contains '？'

/-- The local `_normalize_for_match` redefined inside
`apply_syzbot_policy` (whitespace collapse and strip, no timestamp
strip — the timestamps were already removed line-wise). -/
def wsNormPolicy (s : String) : String := pyStrip (wsCollapse s)

/-- Deduplication loop of `apply_syzbot_policy`: blank lines are dropped,
and a line whose collapsed form was already seen is skipped. -/
def dedupPolicy (seen : List String) : List String → List String
  | [] => []
  | ln :: rest =>
    if pyStrip ln = "" then dedupPolicy seen rest
    else
      let n := wsNormPolicy ln
      if seen.contains n then dedupPolicy seen rest
      else ln :: dedupPolicy (n :: seen) rest

/-- The `apply_syzbot_policy` stage of `policy.py` as implemented: strip
timestamps and surrounding whitespace from every line, drop lines
containing a question mark, deduplicate by collapsed form, compress and
trim blank lines.  The `policy` argument is received but never used — in
particular none of the section caps (`call_trace_max` etc.) is applied
and `_trim_call_trace` is never invoked. -/
def apply_syzbot_policy (text : String) (policy : SyzPolicy) : String :=
  let cleaned := (pySplitlines text).filterMap fun line =>
    let c := pyStrip (tsStrip line)
    if hasQuestionMark c then none else some c
  let dedup := dedupPolicy [] cleaned
  let finalLines := dropTailBlank (dropLeadBlank (compressAux false dedup))
  String.intercalate "\n" finalLines

/-- Forty distinct stack-frame lines, the call-trace body of Scenario B. -/
def ctFrames : List String :=
  (List.range 40).map (fun k => "f" ++ toString k ++ "+0x1/0x2")

/-- Scenario B input: a call-trace block of forty stack frames. -/
def scenarioB : String := String.intercalate "\n" ("Call Trace:" :: ctFrames)

/-- C2 (code bug): with `call_trace_max = 25`, the policy stage was
claimed to keep only the first 25 non-tool frames of a forty-frame
call-trace block.  The implemented `apply_syzbot_policy` ignores its
`policy` argument entirely: on Scenario B it returns all 41 lines
(header plus forty frames) and its output does not depend on the policy,
while the unused `_trim_call_trace` helper applied to the same lines
would return the claimed 26 lines (header plus 25 frames). -/
theorem apply_syzbot_policy_ignores_caps :
    (pySplitlines (apply_syzbot_policy scenarioB {})).length = 41 ∧
    (∀ p q : SyzPolicy, apply_syzbot_policy scenarioB p = apply_syzbot_policy scenarioB q) ∧
    (trimCallTrace toolFrameDefault 25 ("Call Trace:" :: ctFrames)).length = 26 := by
  refine ⟨by decide, fun p q => rfl, by decide⟩

/-! ## fallback.py -/

/-- Split a character list at its first newline, returning the line
including its terminating `\n` and the remainder; `none` if there is no
newline (regex element `[^\n]*\n` / `.*\n`). -/
def splitNL : List Char → Option (List Char × List Char)
  | [] => none
  | '\n' :: rest => some (['\n'], rest)
  | c :: rest =>
    match splitNL rest with
    | none => none
    | some (line, r) => some (c :: line, r)

/-- Greedily consume up to `k` newline-terminated lines, empty allowed
(regex `(?:.*\n){0,k}`); returns the consumed characters and the rest. -/
def takeLines : Nat → List Char → (List Char × List Char)
  | 0, l => ([], l)
  | k + 1, l =>
    match splitNL l with
    | none => ([], l)
    | some (line, r) =>
      let p := takeLines k r
      (line ++ p.1, p.2)

/-- Greedily consume up to `k` nonempty newline-terminated lines
(regex `(?:.+\n){0,k}`). -/
def takeNELines : Nat → List Char → (List Char × List Char)
  | 0, l => ([], l)
  | k + 1, l =>
    match splitNL l with
    | none => ([], l)
    | some (line, r) =>
      if 2 ≤ line.length then
        let p := takeNELines k r
        (line ++ p.1, p.2)
      else ([], l)

/-- Match of the fallback's primary pattern
`BUG:\s*KASAN[^\n]*\n(?:.*\n){0,200}?(?:Memory state around[^\n]*\n(?:.*\n){0,200})?`
anchored at the start of `l`.  The middle `(?:.*\n){0,200}?` is lazy and
the trailing group optional, so the match is the `BUG:` line alone,
extended by the memory-state block only when it starts on the very next
line. -/
def matchKasanAt (l : List Char) : Option (List Char) :=
  if listPrefix "BUG:".data l then
    let l1 := (l.drop 4).dropWhile pySpace
    if listPrefix "KASAN".data l1 then
      match splitNL (l1.drop 5) with
      | none => none
      | some (_, rest) =>
        let rest2 :=
          if listPrefix "Memory state around".data rest then
            match splitNL (rest.drop 19) with
            | none => rest
            | some (_, r2) => (takeLines 200 r2).2
          else rest
        some (l.take (l.length - rest2.length))
    else none
  else none

/-- Leftmost search (`re.search`) for the primary KASAN pattern. -/
def searchKasan (l : List Char) : Option (List Char) :=
  match matchKasanAt l with
  | some m => some m
  | none =>
    match l with
    | [] => none
    | _ :: t => searchKasan t

/-- Match of the fallback's secondary pattern `Call Trace:\n(?:.+\n){1,120}`
anchored at the start of `l`. -/
def matchCTAt (l : List Char) : Option (List Char) :=
  if listPrefix "Call Trace:\n".data l then
    let body := takeNELines 120 (l.drop 12)
    if body.1.isEmpty then none
    else some (l.take (l.length - body.2.length))
  else none

/-- Leftmost search for the call-trace pattern. -/
def searchCT (l : List Char) : Option (List Char) :=
  match matchCTAt l with
  | some m => some m
  | none =>
    match l with
    | [] => none
    | _ :: t => searchCT t

/-- Python `m.group(1).strip("\n")`. -/
def stripNLs (m : List Char) : String := String.mk (stripP (· = '\n') m)

/-- Python `gid2text.get(gid, dflt)` on an association list. -/
def dictGet (d : List (String × String)) (k : String) (dflt : String) : String :=
  match d.find? (fun kv => kv.1 == k) with
  | some kv => kv.2
  | none => dflt

/-- Body of the per-window loop of `rule_extract_fallback`: look up the
window's own text, try the KASAN pattern, then the call-trace pattern,
else produce the empty string. -/
def fallbackOne (gid2text : List (String × String)) (gid : String) :
    String × String :=
  let s := dictGet gid2text gid ""
  match searchKasan s.data with
  | some m => (gid, stripNLs m)
  | none =>
    match searchCT s.data with
    | some m2 => (gid, stripNLs m2)
    | none => (gid, "")

/-- The `rule_extract_fallback` extractor of `fallback.py`.  Note that
the `logtxt` parameter is received but never read: each window is matched
against its own text `gid2text[gid]`. -/
def rule_extract_fallback (logtxt : String) (gid_list : List String)
    (gid2text : List (String × String)) : List (String × String) :=
  gid_list.map (fallbackOne gid2text)

/-- The first component of a fallback entry is the requested window id. -/
theorem fallbackOne_fst (g2t : List (String × String)) (gid : String) :
    (fallbackOne g2t gid).1 = gid := by
  cases hk : searchKasan (dictGet g2t gid "").data with
  | some m => simp [fallbackOne, hk]
  | none =>
    cases hc : searchCT (dictGet g2t gid "").data with
    | some m2 => simp [fallbackOne, hk, hc]
    | none => simp [fallbackOne, hk, hc]

/-- C9: totality of the fallback extractor — for every log text, window
id list and window-text mapping it returns (it never fails) a mapping
with exactly one entry per requested window id, in order; and whenever
neither the primary KASAN pattern nor the call-trace pattern matches a
window's text, that window's entry is the empty string. -/
theorem rule_extract_fallback_total (logtxt : String) (gids : List String)
    (g2t : List (String × String)) :
    (rule_extract_fallback logtxt gids g2t).map Prod.fst = gids ∧
    ∀ gid ∈ gids,
      searchKasan (dictGet g2t gid "").data = none →
      searchCT (dictGet g2t gid "").data = none →
      (gid, "") ∈ rule_extract_fallback logtxt gids g2t := by
  constructor
  · rw [rule_extract_fallback, List.map_map]
    nth_rewrite 2 [show gids = gids.map id from (List.map_id gids).symm]
    exact List.map_congr_left fun gid _ => fallbackOne_fst g2t gid
  · intro gid hg hk hc
    rw [rule_extract_fallback]
    refine List.mem_map.2 ⟨gid, hg, ?_⟩
    simp only [fallbackOne, hk, hc]

/-- Witness for C9 at a concrete input: for the window `g` with text
`hello`, neither pattern matches and the entry `(g, "")` is returned. -/
theorem rule_extract_fallback_total_witness :
    ("g", "") ∈ rule_extract_fallback "" ["g"] [("g", "hello")] :=
  (rule_extract_fallback_total "" ["g"] [("g", "hello")]).2 "g" (by decide)
    (by decide) (by decide)

/-- A one-line KASAN log used to refute window independence. -/
def kasanLog : String := "BUG: KASAN: slab-out-of-bounds in foo\n"

/-- C5 is false as stated: for a fixed full log, the fallback result for
a window id is *not* independent of the window partition — it is computed
from the window's own text `gid2text[gid]`, so two partitions of the same
log give different results for the same window id. -/
theorem rule_extract_fallback_window_dependent :
    rule_extract_fallback kasanLog ["g"] [("g", kasanLog)] ≠
      rule_extract_fallback kasanLog ["g"] [("g", "")] := by
  decide

/-- C5 (amended): the fallback extractor ignores its full-log argument
and pattern-matches over each window's own text: whenever two calls agree
on the text mapped to every requested window id, they return identical
results, regardless of the full log passed. -/
theorem rule_extract_fallback_ignores_full_log (L1 L2 : String)
    (gids : List String) (m1 m2 : List (String × String))
    (h : ∀ g ∈ gids, dictGet m1 g "" = dictGet m2 g "") :
    rule_extract_fallback L1 gids m1 = rule_extract_fallback L2 gids m2 := by
  unfold rule_extract_fallback
  exact List.map_congr_left fun gid hg => by
    simp only [fallbackOne, h gid hg]

/-- Witness for the amended C5 at concrete inputs: two different full
logs and two different mappings agreeing on window `g` give the same
result. -/
theorem rule_extract_fallback_ignores_full_log_witness :
    rule_extract_fallback "log-a" ["g"] [("g", "x")] =
      rule_extract_fallback "log-b" ["g"] [("g", "x"), ("h", "y")] :=
  rule_extract_fallback_ignores_full_log "log-a" "log-b" ["g"]
    [("g", "x")] [("g", "x"), ("h", "y")] (by decide)

/-! ## chunking.py — anchor patterns -/

/-- Try a predicate at every suffix of a list (`re.search`). -/
def anySuffix (p : List Char → Bool) : List Char → Bool
  | [] => p []
  | c :: t => p (c :: t) || anySuffix p t

/-- Try a predicate at every suffix, also passing the previous character
(for word boundaries `\b`); start with `none`. -/
def anySuffixPrev (p : Option Char → List Char → Bool) :
    Option Char → List Char → Bool
  | prev, [] => p prev []
  | prev, c :: t => p prev (c :: t) || anySuffixPrev p (some c) t

/-- Word boundary before a position whose character is a word character:
start of string or a non-word predecessor. -/
def boundaryBefore (prev : Option Char) : Bool :=
  match prev with
  | none => true
  | some c => !pyWordChar c

/-- Word boundary after a consumed word character: end of string or a
non-word successor. -/
def boundaryAfter (l : List Char) : Bool :=
  match l with
  | [] => true
  | c :: _ => !pyWordChar c

/-- Head-is-digit test (`\d`). -/
def headDigit (l : List Char) : Bool :=
  match l with
  | c :: _ => c.isDigit
  | [] => false

/-- Search `BUG:\s*KASAN` (re.I): shared by `chunking.RE_ANCHORS` and
`ordering.R_BUG`. -/
def hasBugKasan (s : String) : Bool :=
  anySuffix
    (fun l => listPrefix "bug:".data l &&
      listPrefix "kasan".data ((l.drop 4).dropWhile pySpace))
    (lowerStr s).data

/-- Search `\bCall Trace:` (case-sensitive, `chunking.RE_ANCHORS`). -/
def hasCallTraceAnch (s : String) : Bool :=
  anySuffixPrev
    (fun prev l => boundaryBefore prev && listPrefix "Call Trace:".data l)
    none s.data

/-- Search `\b(Read|Write) of size \d+` (re.I). -/
def hasReadWriteSize (s : String) : Bool :=
  anySuffixPrev
    (fun prev l => boundaryBefore prev &&
      ((listPrefix "read of size ".data l && headDigit (l.drop 13)) ||
       (listPrefix "write of size ".data l && headDigit (l.drop 14))))
    none (lowerStr s).data

/-- Search `\bCPU:\s*\d+` (re.I). -/
def hasCpuNum (s : String) : Bool :=
  anySuffixPrev
    (fun prev l => boundaryBefore prev && listPrefix "cpu:".data l &&
      headDigit ((l.drop 4).dropWhile pySpace))
    none (lowerStr s).data

/-- Search `\bHardware name:\s*` (re.I). -/
def hasHwName (s : String) : Bool :=
  anySuffixPrev
    (fun prev l => boundaryBefore prev && listPrefix "hardware name:".data l)
    none (lowerStr s).data

/-- Search a fully word-delimited literal (lowercase) of length `k`. -/
def hasWordDelim (needle : String) (k : Nat) (s : String) : Bool :=
  anySuffixPrev
    (fun prev l => boundaryBefore prev && listPrefix needle.data l &&
      boundaryAfter (l.drop k))
    none (lowerStr s).data

/-- Search `^page:\s*[0-9a-fx]+` (re.I, anchored at string start). -/
def hasPageColon (s : String) : Bool :=
  let l := (lowerStr s).data
  listPrefix "page:".data l &&
    (match (l.drop 5).dropWhile pySpace with
     | c :: _ => c.isDigit || ('a' ≤ c && c ≤ 'f') || c = 'x'
     | [] => false)

/-- Search `\bCode:\b` (re.I): the trailing boundary after the non-word
`:` demands a following word character. -/
def hasCodeWordB (s : String) : Bool :=
  anySuffixPrev
    (fun prev l => boundaryBefore prev && listPrefix "code:".data l &&
      (match l.drop 5 with
       | c :: _ => pyWordChar c
       | [] => false))
    none (lowerStr s).data

/-- Search `^trace:` (re.I, anchored at string start). -/
def hasTraceColon (s : String) : Bool :=
  listPrefix "trace:".data (lowerStr s).data

/-- A primary anchor line (`chunking.RE_ANCHORS`). -/
def isPrimaryAnchor (s : String) : Bool :=
  hasBugKasan s || hasCallTraceAnch s

/-- A secondary anchor line (`chunking.RE_SECONDARY`). -/
def isSecondaryAnchor (s : String) : Bool :=
  hasReadWriteSize s || hasCpuNum s || hasHwName s ||
  hasWordDelim "allocated by task" 17 s ||
  hasWordDelim "freed by task" 13 s ||
  hasWordDelim "the buggy address belongs to" 28 s ||
  hasWordDelim "memory state around" 19 s ||
  hasWordDelim "page_owner" 10 s || hasPageColon s ||
  hasWordDelim "slab" 4 s || hasWordDelim "kmalloc" 7 s ||
  hasWordDelim "kmem_cache" 10 s || hasWordDelim "object" 6 s ||
  hasWordDelim "disassembly" 11 s || hasCodeWordB s ||
  hasWordDelim "ftrace" 6 s || hasWordDelim "tracing" 7 s || hasTraceColon s

/-- An anchor line: any primary or secondary pattern matches. -/
def isAnchorLine (s : String) : Bool :=
  isPrimaryAnchor s || isSecondaryAnchor s

/-- The `_find_anchor_lines` helper: indices of the anchor lines, in
order.  (The source follows the scan with a duplicate-removal pass that
is the identity on the already strictly increasing index list.) -/
def findAnchorLines (lines : List String) : List Nat :=
  (List.range lines.length).filter (fun i => isAnchorLine (lines.getD i ""))

/-! ## chunking.py — spans and scheduling -/

/-- Loop of `chunk_lines`: from `i`, emit `(i, min (i+maxL) n)`, stop at
the document end, else restart from `max 0 (j - (maxL - stride))`, which
in integer arithmetic is `(j + stride) - maxL` truncated at zero.  The
fuel argument dominates the loop count; `chunk_lines` passes `n + 1`,
enough whenever `stride ≥ 1` (the source loops forever on `stride = 0`
and `maxL = stride`-free progress, which no claim exercises). -/
def chunkAux (n maxL stride : Nat) : Nat → Nat → List (Nat × Nat)
  | 0, _ => []
  | fuel + 1, i =>
    if i < n then
      let j := min (i + maxL) n
      if j = n then [(i, j)]
      else (i, j) :: chunkAux n maxL stride fuel ((j + stride) - maxL)
    else []

/-- The `chunk_lines` sliding-window selector of `chunking.py`. -/
def chunk_lines (lines : List String) (max_lines stride : Nat) :
    List (Nat × Nat) :=
  chunkAux lines.length max_lines stride (lines.length + 1) 0

/-- Stable lexicographic order on intervals, Python's `sorted` order. -/
def lexLe (a b : Nat × Nat) : Bool :=
  a.1 < b.1 || (a.1 = b.1 && a.2 ≤ b.2)

/-- Ordered insertion for `isort`. -/
def insSorted (x : Nat × Nat) : List (Nat × Nat) → List (Nat × Nat)
  | [] => [x]
  | y :: ys => if lexLe x y then x :: y :: ys else y :: insSorted x ys

/-- Sorting of the interval list (Python `sorted(intervals)`); on `Nat`
pairs the sorted list is unique, so insertion sort is adequate. -/
def isort : List (Nat × Nat) → List (Nat × Nat)
  | [] => []
  | x :: xs => insSorted x (isort xs)

/-- Fold of `_merge_intervals` over the sorted tail: `cur` is the last
merged interval (`merged[-1]`).  A new interval starts when
`s > cur_end - 10` (in integers: `cur_end < s + 10`); otherwise the
current end is extended to `max cur_end e` and clipped back to
`cur_start + max_lines` when it exceeds it. -/
def mergeGo (maxL : Nat) (cur : Nat × Nat) : List (Nat × Nat) → List (Nat × Nat)
  | [] => [cur]
  | (s, e) :: rest =>
    if cur.2 < s + 10 then cur :: mergeGo maxL (s, e) rest
    else
      let e1 := max cur.2 e
      let e2 := if cur.1 + maxL < e1 then cur.1 + maxL else e1
      mergeGo maxL (cur.1, e2) rest

/-- The `_merge_intervals` helper of `chunking.py`. -/
def mergeIntervals (intervals : List (Nat × Nat)) (maxL : Nat) :
    List (Nat × Nat) :=
  match isort intervals with
  | [] => []
  | x :: xs => mergeGo maxL x xs

/-- The `anchor_spans` selector of `chunking.py`: one interval
`[max 0 (a - pre), min n (start + maxL))` per anchor, then merged. -/
def anchor_spans (lines : List String) (max_lines pre : Nat) :
    List (Nat × Nat) :=
  let n := lines.length
  let anchors := findAnchorLines lines
  if anchors.isEmpty then []
  else
    mergeIntervals
      (anchors.map (fun a => (a - pre, min n ((a - pre) + max_lines))))
      max_lines

/-- The `make_windows` dispatcher of `chunking.py` (`pre = 20`). -/
def make_windows (lines : List String) (max_lines stride : Nat) :
    List (Nat × Nat) × String :=
  let spans := anchor_spans lines max_lines 20
  if spans.isEmpty then (chunk_lines lines max_lines stride, "sliding")
  else (spans, "anchor")

namespace Chunking

/-- The scheduler `Task` of `chunking.py` (namespaced: core Lean already
has a `Task` type). -/
structure Task where
  gids : List String
  tok_budget : Int
  max_lines : Int
  stride : Int
  depth : Nat
  fewshot_level : Int
deriving DecidableEq, Repr

/-- The `schedule_adaptive` split/shrink policy of `chunking.py`, with
the depth limits and budget floors as parameters and the shrink factor
fixed at its default `0.7` (`int(x * 0.7)` modelled as `(7 * x).tdiv 10`):
bisect the window set while below the split depth, else shrink budgets
while below the shrink depth, else produce no children. -/
def schedule_adaptive (task : Task) (SPLIT_MAX_DEPTH SHRINK_MAX_DEPTH : Nat)
    (MIN_TOK MIN_LINES : Int) : List Task :=
  if 1 < task.gids.length ∧ task.depth < SPLIT_MAX_DEPTH then
    let mid := (task.gids.length + 1) / 2
    let nextTok := max ((7 * task.tok_budget).tdiv 10) MIN_TOK
    let nextLn := max ((7 * task.max_lines).tdiv 10) MIN_LINES
    let nextFs := max (task.fewshot_level - 1) 0
    [⟨task.gids.take mid, nextTok, nextLn, task.stride, task.depth + 1, nextFs⟩,
     ⟨task.gids.drop mid, nextTok, nextLn, task.stride, task.depth + 1, nextFs⟩]
  else if task.depth < SHRINK_MAX_DEPTH then
    let nextTok := max ((7 * task.tok_budget).tdiv 10) MIN_TOK
    let nextLn := max ((7 * task.max_lines).tdiv 10) MIN_LINES
    let nextFs := max (task.fewshot_level - 1) 0
    [⟨task.gids, nextTok, nextLn, task.stride, task.depth + 1, nextFs⟩]
  else []

end Chunking

/-! ## Claims C6 and C7 -/

/-- C6 is false as stated: on a five-line anchor-free document with
`max_lines = 3` and `stride = 1` the sliding selector produces
`[(0,3), (1,4), (2,5)]`, whose consecutive windows overlap by
`max_lines - stride = 2` lines, not by `stride = 1` lines. -/
theorem chunk_lines_overlap_not_stride :
    make_windows ["l1", "l2", "l3", "l4", "l5"] 3 1 =
      ([(0, 3), (1, 4), (2, 5)], "sliding") ∧
    ¬ List.Chain' (fun a b : Nat × Nat => a.2 - b.1 = 1)
      (make_windows ["l1", "l2", "l3", "l4", "l5"] 3 1).1 := by
  have heq : (make_windows ["l1", "l2", "l3", "l4", "l5"] 3 1).1 =
      [(0, 3), (1, 4), (2, 5)] := by decide
  refine ⟨by decide, ?_⟩
  rw [heq, List.chain'_cons]
  intro h
  exact absurd h.1 (by decide)

/-- Invariant of the `chunk_lines` loop: starting inside the document
with enough fuel, the produced spans begin at the start index, every span
ends at `min (start + maxL) n`, the final span ends at `n`, and
consecutive spans advance by `stride` (equivalently overlap by
`maxL - stride`). -/
theorem chunkAux_spec (n maxL stride : Nat) (h1 : 1 ≤ stride)
    (h2 : stride ≤ maxL) :
    ∀ fuel i, i < n → n ≤ i + fuel →
      (chunkAux n maxL stride fuel i).head? = some (i, min (i + maxL) n) ∧
      (∀ se ∈ chunkAux n maxL stride fuel i, se.2 = min (se.1 + maxL) n) ∧
      (∃ s, (chunkAux n maxL stride fuel i).getLast? = some (s, n)) ∧
      List.Chain'
        (fun a b => b.1 = (a.2 + stride) - maxL ∧ a.2 - b.1 = maxL - stride)
        (chunkAux n maxL stride fuel i) := by
  intro fuel
  induction fuel with
  | zero => intro i hi hfuel; omega
  | succ fuel ih =>
    intro i hi hfuel
    by_cases hj : min (i + maxL) n = n
    · have hexp : chunkAux n maxL stride (fuel + 1) i = [(i, min (i + maxL) n)] := by
        simp only [chunkAux, if_pos hi, if_pos hj]
      rw [hexp]
      refine ⟨rfl, ?_, ⟨i, by rw [List.getLast?_singleton, hj]⟩, List.chain'_singleton _⟩
      intro se hse
      rw [List.mem_singleton] at hse
      subst hse
      rfl
    · have hmin : i + maxL < n := by
        rcases Nat.lt_or_ge (i + maxL) n with h | h
        · exact h
        · exact absurd (Nat.min_eq_right h) hj
      have hminval : min (i + maxL) n = i + maxL := Nat.min_eq_left (by omega)
      have hexp : chunkAux n maxL stride (fuel + 1) i =
          (i, min (i + maxL) n) ::
            chunkAux n maxL stride fuel ((min (i + maxL) n + stride) - maxL) := by
        simp only [chunkAux, if_pos hi, if_neg hj]
      have hi' : (min (i + maxL) n + stride) - maxL = i + stride := by omega
      obtain ⟨ihHead, ihAll, ihLast, ihChain⟩ :=
        ih ((min (i + maxL) n + stride) - maxL) (by omega) (by omega)
      rw [hexp]
      obtain ⟨t0, ts, hts⟩ :
          ∃ t0 ts, chunkAux n maxL stride fuel ((min (i + maxL) n + stride) - maxL) =
            t0 :: ts := by
        cases hc : chunkAux n maxL stride fuel ((min (i + maxL) n + stride) - maxL) with
        | nil => rw [hc] at ihHead; simp at ihHead
        | cons t0 ts => exact ⟨t0, ts, rfl⟩
      rw [hts] at ihHead ihAll ihLast ihChain ⊢
      have ht0 : t0 = ((i + stride : Nat), min (i + stride + maxL) n) := by
        rw [List.head?_cons] at ihHead
        injection ihHead with h
        rw [h, hi']
      refine ⟨rfl, ?_, ?_, ?_⟩
      · intro se hse
        rcases List.mem_cons.1 hse with h | h
        · subst h; rfl
        · exact ihAll se h
      · obtain ⟨s, hs⟩ := ihLast
        exact ⟨s, by rw [List.getLast?_cons_cons, hs]⟩
      · rw [List.chain'_cons]
        refine ⟨?_, ihChain⟩
        subst ht0
        constructor
        · simp only [hi']
        · simp only [hminval]
          omega

/-- C6 (amended): for a nonempty document and `1 ≤ stride ≤ max_lines`,
the sliding selector tiles the document from line 0 with windows ending
at `min (start + max_lines) n`; consecutive windows advance by `stride`
lines, hence overlap by `max_lines - stride` (not `stride`) lines, and
the last window ends exactly at the last line. -/
theorem chunk_lines_tiling (lines : List String) (maxL stride : Nat)
    (hne : lines ≠ []) (h1 : 1 ≤ stride) (h2 : stride ≤ maxL) :
    chunk_lines lines maxL stride ≠ [] ∧
    (chunk_lines lines maxL stride).head? = some (0, min maxL lines.length) ∧
    (∀ se ∈ chunk_lines lines maxL stride,
      se.2 = min (se.1 + maxL) lines.length) ∧
    (∃ s, (chunk_lines lines maxL stride).getLast? = some (s, lines.length)) ∧
    List.Chain'
      (fun a b => b.1 = (a.2 + stride) - maxL ∧ a.2 - b.1 = maxL - stride)
      (chunk_lines lines maxL stride) := by
  have hn : 0 < lines.length := List.length_pos.2 hne
  obtain ⟨hHead, hAll, hLast, hChain⟩ :=
    chunkAux_spec lines.length maxL stride h1 h2 (lines.length + 1) 0 hn (by omega)
  rw [chunk_lines]
  refine ⟨?_, by simpa using hHead, hAll, hLast, hChain⟩
  intro hnil
  rw [hnil] at hHead
  simp at hHead

/-- Witness for the amended C6 at a concrete input. -/
theorem chunk_lines_tiling_witness :
    chunk_lines ["l1", "l2", "l3", "l4", "l5"] 3 1 ≠ [] ∧
    (chunk_lines ["l1", "l2", "l3", "l4", "l5"] 3 1).head? = some (0, min 3 5) ∧
    (∀ se ∈ chunk_lines ["l1", "l2", "l3", "l4", "l5"] 3 1,
      se.2 = min (se.1 + 3) 5) ∧
    (∃ s, (chunk_lines ["l1", "l2", "l3", "l4", "l5"] 3 1).getLast? = some (s, 5)) ∧
    List.Chain' (fun a b => b.1 = (a.2 + 1) - 3 ∧ a.2 - b.1 = 3 - 1)
      (chunk_lines ["l1", "l2", "l3", "l4", "l5"] 3 1) :=
  chunk_lines_tiling ["l1", "l2", "l3", "l4", "l5"] 3 1 (by decide) (by decide)
    (by decide)

/-- A child produced by `schedule_adaptive` is one level deeper than its
parent, and children exist only below `max SPLIT SHRINK`. -/
theorem mem_schedule_adaptive_depth {t c : Chunking.Task} {a b : Nat}
    {mt ml : Int} (h : c ∈ Chunking.schedule_adaptive t a b mt ml) :
    c.depth = t.depth + 1 ∧ t.depth < max a b := by
  unfold Chunking.schedule_adaptive at h
  split_ifs at h with h1 h2
  · simp only [List.mem_cons, List.mem_singleton, List.not_mem_nil, or_false] at h
    rcases h with h | h <;> subst h <;>
      exact ⟨rfl, lt_of_lt_of_le h1.2 (le_max_left a b)⟩
  · simp only [List.mem_singleton] at h
    subst h
    exact ⟨rfl, lt_of_lt_of_le h2 (le_max_right a b)⟩
  · simp at h

/-- A task at depth `max SPLIT SHRINK` or deeper produces no children. -/
theorem schedule_adaptive_nil_of_depth (t : Chunking.Task) (a b : Nat)
    (mt ml : Int) (h : max a b ≤ t.depth) :
    Chunking.schedule_adaptive t a b mt ml = [] := by
  have ha : ¬ t.depth < a := by omega
  have hb : ¬ t.depth < b := by omega
  unfold Chunking.schedule_adaptive
  simp [ha, hb]

/-- C7: split/shrink termination — along any chain of repeated
`schedule_adaptive` applications starting from a task of depth 0 (each
next task a child of the previous one), at most `max SPLIT SHRINK`
applications can produce children: the chain length is bounded by
`max SPLIT SHRINK`, the depth equals the application count, and the
application at depth `max SPLIT SHRINK` produces no children — so a
child-less (fallback) step is reached within `max SPLIT SHRINK + 1`
applications, for every choice of the depth limits and budget floors. -/
theorem schedule_adaptive_terminates (a b : Nat) (mt ml : Int)
    (f : Nat → Chunking.Task) (k : Nat) (h0 : (f 0).depth = 0)
    (hstep : ∀ i, i < k → f (i + 1) ∈ Chunking.schedule_adaptive (f i) a b mt ml) :
    k ≤ max a b ∧ (f k).depth = k ∧
      (k = max a b → Chunking.schedule_adaptive (f k) a b mt ml = []) := by
  have hdepth : ∀ i, i ≤ k → (f i).depth = i := by
    intro i
    induction i with
    | zero => exact fun _ => h0
    | succ m ihm =>
      intro hm
      have hc := (mem_schedule_adaptive_depth (hstep m (by omega))).1
      rw [ihm (by omega)] at hc
      exact hc
  refine ⟨?_, hdepth k le_rfl, ?_⟩
  · cases k with
    | zero => exact Nat.zero_le _
    | succ m =>
      have hlt := (mem_schedule_adaptive_depth (hstep m (by omega))).2
      rw [hdepth m (by omega)] at hlt
      omega
  · intro hk
    exact schedule_adaptive_nil_of_depth _ a b mt ml
      (by rw [hdepth k le_rfl, hk])

/-- A depth-0 scheduler task used by the C7 witness. -/
def taskW0 : Chunking.Task := ⟨["g1"], 500, 60, 50, 0, 2⟩

/-- The single shrink child of `taskW0` under the default parameters. -/
def taskW1 : Chunking.Task := ⟨["g1"], 350, 42, 50, 1, 1⟩

/-- Witness for C7 at a concrete one-step chain with the source's default
parameters (`SPLIT_MAX_DEPTH = 2`, `SHRINK_MAX_DEPTH = 3`). -/
theorem schedule_adaptive_terminates_witness :
    1 ≤ max 2 3 ∧
      ((fun i => if i = 0 then taskW0 else taskW1) 1).depth = 1 ∧
      (1 = max 2 3 →
        Chunking.schedule_adaptive ((fun i => if i = 0 then taskW0 else taskW1) 1)
          2 3 220 30 = []) :=
  schedule_adaptive_terminates 2 3 220 30
    (fun i => if i = 0 then taskW0 else taskW1) 1 (by decide)
    (by intro i hi; interval_cases i; decide)

/-! ## Claim C8 -/

/-- A document whose only anchor sits at line 20. -/
def anchorAt20 : List String :=
  List.replicate 20 "padline" ++ ["BUG: KASAN: use-after-free in foo"]

/-- C8 is false as stated: with `max_lines = 10` the anchor at line 20
gets the interval `[max 0 (20 - 20), min n (0 + 10)) = [0, 10)`, which
does not contain it, and no returned span covers it. -/
theorem anchor_spans_misses_anchor :
    isAnchorLine (anchorAt20.getD 20 "") = true ∧
    anchor_spans anchorAt20 10 20 = [(0, 10)] ∧
    ∀ se ∈ anchor_spans anchorAt20 10 20, ¬ (se.1 ≤ 20 ∧ 20 < se.2) := by
  refine ⟨by decide, by decide, ?_⟩
  have h : anchor_spans anchorAt20 10 20 = [(0, 10)] := by decide
  rw [h]
  intro se hse
  rw [List.mem_singleton] at hse
  subst hse
  decide

/-- Insertion sort is the identity on a lexicographically sorted list. -/
theorem isort_eq_self (l : List (Nat × Nat))
    (h : List.Chain' (fun a b => lexLe a b = true) l) : isort l = l := by
  induction l with
  | nil => rfl
  | cons x xs ih =>
    cases xs with
    | nil => simp [isort, insSorted]
    | cons y ys =>
      rw [List.chain'_cons] at h
      simp only [isort] at ih ⊢
      rw [ih h.2]
      simp only [insSorted]
      rw [if_pos h.1]

/-- Head invariant of the `_merge_intervals` fold: the first merged
interval keeps the start of the first input interval, and its end never
drops below `min` of that interval's end and the clipping bound. -/
theorem mergeGo_head (maxL : Nat) :
    ∀ (xs : List (Nat × Nat)) (cur : Nat × Nat),
      ∃ E, (mergeGo maxL cur xs).head? = some (cur.1, E) ∧
        min cur.2 (cur.1 + maxL) ≤ E := by
  intro xs
  induction xs with
  | nil =>
    intro cur
    exact ⟨cur.2, by simp [mergeGo], Nat.min_le_left _ _⟩
  | cons p rest ih =>
    intro cur
    obtain ⟨s, e⟩ := p
    by_cases hnew : cur.2 < s + 10
    · refine ⟨cur.2, ?_, Nat.min_le_left _ _⟩
      simp [mergeGo, hnew]
    · obtain ⟨E, hE, hmin⟩ :=
        ih (cur.1, if cur.1 + maxL < max cur.2 e then cur.1 + maxL else max cur.2 e)
      refine ⟨E, ?_, ?_⟩
      · simp only [mergeGo, if_neg hnew]
        simpa using hE
      · simp only at hmin
        by_cases hcap : cur.1 + maxL < max cur.2 e
        · rw [if_pos hcap, Nat.min_self] at hmin
          exact le_trans (Nat.min_le_right _ _) hmin
        · rw [if_neg hcap] at hmin
          exact le_trans (min_le_min (Nat.le_max_left cur.2 e) le_rfl) hmin

/-- C8 (amended): the pre-context is 20 lines, so for `max_lines ≥ 21`
the *earliest* anchor line is always covered by the first returned span:
it starts at `a0 - 20 ≤ a0` and ends strictly beyond `a0`, and this
survives merging and re-clipping.  (Later anchors can still be uncovered:
merging clips a combined interval back to `max_lines` from the first
start, and for `max_lines ≤ 20` even a single anchor escapes its own
window, as the counterexample shows.) -/
theorem anchor_spans_cover_first (lines : List String) (maxL : Nat)
    (h21 : 21 ≤ maxL) (a0 : Nat) (rest : List Nat)
    (ha : findAnchorLines lines = a0 :: rest) :
    ∃ E, (anchor_spans lines maxL 20).head? = some (a0 - 20, E) ∧
      a0 - 20 ≤ a0 ∧ a0 < E := by
  have ha0 : a0 < lines.length := by
    have hm : a0 ∈ findAnchorLines lines := by
      rw [ha]; exact List.mem_cons_self _ _
    rw [findAnchorLines] at hm
    exact List.mem_range.1 (List.mem_of_mem_filter hm)
  have hpw : List.Pairwise (· < ·) (a0 :: rest) := by
    rw [← ha, findAnchorLines]
    exact (List.pairwise_lt_range _).filter _
  have hmap : List.Chain' (fun x y : Nat × Nat => lexLe x y = true)
      ((a0 :: rest).map
        (fun a => (a - 20, min lines.length ((a - 20) + maxL)))) := by
    refine List.Pairwise.chain' (List.pairwise_map.2 (hpw.imp ?_))
    intro a b hab
    simp only [lexLe]
    rcases Nat.lt_or_ge (a - 20) (b - 20) with hlt | hge
    · simp [hlt]
    · have heq : a - 20 = b - 20 := by omega
      rw [heq]
      simp
  have hspan : anchor_spans lines maxL 20 =
      mergeGo maxL (a0 - 20, min lines.length ((a0 - 20) + maxL))
        (rest.map (fun a => (a - 20, min lines.length ((a - 20) + maxL)))) := by
    simp only [anchor_spans, ha, List.isEmpty_cons, if_neg, Bool.false_eq_true,
      not_false_iff, if_false, mergeIntervals, List.map_cons]
    rw [isort_eq_self _ (by simpa using hmap)]
  obtain ⟨E, hE, hmin⟩ :=
    mergeGo_head maxL
      (rest.map (fun a => (a - 20, min lines.length ((a - 20) + maxL))))
      (a0 - 20, min lines.length ((a0 - 20) + maxL))
  refine ⟨E, by rw [hspan]; simpa using hE, Nat.sub_le _ _, ?_⟩
  have hlt : a0 < min lines.length ((a0 - 20) + maxL) := by
    refine Nat.lt_min.2 ⟨ha0, by omega⟩
  have hle : min (min lines.length ((a0 - 20) + maxL)) ((a0 - 20) + maxL) =
      min lines.length ((a0 - 20) + maxL) := by
    exact Nat.min_eq_left (Nat.min_le_right _ _)
  simp only at hmin
  omega

/-- Witness for the amended C8 at a concrete input: a single anchor at
line 0 with `max_lines = 21` is covered by the first span. -/
theorem anchor_spans_cover_first_witness :
    ∃ E, (anchor_spans ["BUG: KASAN: x"] 21 20).head? = some (0 - 20, E) ∧
      0 - 20 ≤ 0 ∧ 0 < E :=
  anchor_spans_cover_first ["BUG: KASAN: x"] 21 (by decide) 0 [] (by decide)

/-! ## ordering.py — line matchers -/

/-- Case-insensitive anchored prefix test (an `re.I` `.match` of a
literal). -/
def startsCI (s : String) (needle : String) : Bool :=
  listPrefix needle.data (lowerStr s).data

/-- `R_BUG` (`^.*BUG:\s*KASAN.*$`, re.I): the line contains `BUG:`
followed by optional whitespace and `KASAN`. -/
def isBugLine (s : String) : Bool := hasBugKasan s

/-- `R_RW` (`^(?:.*(?:Read|Write) of size \d+.*)$`, re.I). -/
def isRWLine (s : String) : Bool :=
  anySuffix
    (fun l =>
      (listPrefix "read of size ".data l && headDigit (l.drop 13)) ||
      (listPrefix "write of size ".data l && headDigit (l.drop 14)))
    (lowerStr s).data

/-- `R_CPU` (`^CPU:\s*\d+.*$`, re.I). -/
def isCpuLine (s : String) : Bool :=
  listPrefix "cpu:".data (lowerStr s).data &&
    headDigit (((lowerStr s).data.drop 4).dropWhile pySpace)

/-- `R_HW` (`^Hardware name:.*$`, re.I). -/
def isHwLine (s : String) : Bool := startsCI s "hardware name:"

/-- `R_CT` (`^Call Trace:\s*$`, re.I). -/
def isCTHeader (s : String) : Bool :=
  listPrefix "call trace:".data (lowerStr s).data &&
    ((lowerStr s).data.drop 11).all pySpace

/-- `R_T_OPEN` (`^<TASK>\s*$`, re.I). -/
def isTOpen (s : String) : Bool :=
  listPrefix "<task>".data (lowerStr s).data &&
    ((lowerStr s).data.drop 6).all pySpace

/-- `R_T_END` (`^</TASK>\s*$`, re.I). -/
def isTEnd (s : String) : Bool :=
  listPrefix "</task>".data (lowerStr s).data &&
    ((lowerStr s).data.drop 7).all pySpace

/-- `R_ALLOC` (`^Allocated by task.*$`, re.I). -/
def isAllocLine (s : String) : Bool := startsCI s "allocated by task"

/-- `R_FREED` (`^Freed by task.*$`, re.I). -/
def isFreedLine (s : String) : Bool := startsCI s "freed by task"

/-- `R_BUGGY` (`^The buggy address belongs to.*$`, re.I). -/
def isBuggyLine (s : String) : Bool :=
  startsCI s "the buggy address belongs to"

/-- `R_MEM` (`^Memory state around.*$`, re.I). -/
def isMemLine (s : String) : Bool := startsCI s "memory state around"

/-- `R_PAGE` (`^(?:page_owner|page last (?:allocated|free) pid|page last free pid|page:\s*).*$`, re.I). -/
def isPageLine (s : String) : Bool :=
  startsCI s "page_owner" || startsCI s "page last allocated pid" ||
  startsCI s "page last free pid" || startsCI s "page:"

/-- `R_PANIC` (`^Kernel panic\b|^panic\b`, re.I) — terminator only. -/
def isPanicLine (s : String) : Bool :=
  (listPrefix "kernel panic".data (lowerStr s).data &&
    boundaryAfter ((lowerStr s).data.drop 12)) ||
  (listPrefix "panic".data (lowerStr s).data &&
    boundaryAfter ((lowerStr s).data.drop 5))

/-- `R_RIP` (`^RIP:\s*`, re.I). -/
def isRipLine (s : String) : Bool := startsCI s "rip:"

/-- `R_CODE` (`^Code:\s*`, re.I). -/
def isCodeLine (s : String) : Bool := startsCI s "code:"

/-- `R_REGS` (`^(RSP|RAX|RBX|RCX|RDX|RSI|RDI|RBP|R08|R09|R10|R11|R12|R13|R14|R15):\s*`, re.I). -/
def isRegsLine (s : String) : Bool :=
  startsCI s "rsp:" || startsCI s "rax:" || startsCI s "rbx:" ||
  startsCI s "rcx:" || startsCI s "rdx:" || startsCI s "rsi:" ||
  startsCI s "rdi:" || startsCI s "rbp:" || startsCI s "r08:" ||
  startsCI s "r09:" || startsCI s "r10:" || startsCI s "r11:" ||
  startsCI s "r12:" || startsCI s "r13:" || startsCI s "r14:" ||
  startsCI s "r15:"

/-- `R_OFFS` (`^Kernel Offset:\s*`, re.I) — terminator only. -/
def isOffsLine (s : String) : Bool := startsCI s "kernel offset:"

/-- `R_REBOOT` (`^Rebooting in \d+ seconds\.\.`, re.I). -/
def isRebootLine (s : String) : Bool :=
  let l := (lowerStr s).data
  listPrefix "rebooting in ".data l &&
    (let l1 := l.drop 13
     !(l1.takeWhile Char.isDigit).isEmpty &&
       listPrefix " seconds..".data (l1.dropWhile Char.isDigit))

/-- The `_HARD` terminator list of `ordering.py` (`_is_hard_break`). -/
def isHardBreak (s : String) : Bool :=
  isBugLine s || isRWLine s || isCpuLine s || isHwLine s || isCTHeader s ||
  isAllocLine s || isFreedLine s || isBuggyLine s || isMemLine s ||
  isPageLine s || isPanicLine s || isRipLine s || isCodeLine s ||
  isOffsLine s || isRebootLine s || isTOpen s || isTEnd s

/-- First-character class of `R_FRAME_STD` (`[A-Za-z_.$<>]`). -/
def identStart (c : Char) : Bool :=
  c.isAlpha || c = '_' || c = '.' || c = '$' || c = '<' || c = '>'

/-- Continuation class of `R_FRAME_STD` (`[A-Za-z0-9_.$<>-]`). -/
def identCont (c : Char) : Bool :=
  c.isAlphanum || c = '_' || c = '.' || c = '$' || c = '<' || c = '>' ||
  c = '-'

/-- Hex digits (`[0-9a-fA-F]`). -/
def isHexChar (c : Char) : Bool :=
  c.isDigit || ('a' ≤ c && c ≤ 'f') || ('A' ≤ c && c ≤ 'F')

/-- The size class of `R_FRAME_STD` (`[0-9xa-fA-F]`, lowercase `x`). -/
def isHexXChar (c : Char) : Bool := isHexChar c || c = 'x'

/-- `R_FRAME_STD`
(`^[ \t]*[A-Za-z_.$<>][A-Za-z0-9_.$<>-]*\+0x[0-9a-fA-F]+/[0-9xa-fA-F]+(?:\b.*)?$`,
case-sensitive): leading blanks, identifier, `+0xHEX/HEXX`, then end of
line or a non-word character. -/
def frameStd (s : String) : Bool :=
  match s.data.dropWhile (fun c => c = ' ' || c = '\t') with
  | [] => false
  | c :: rest =>
    identStart c &&
      (let r1 := rest.dropWhile identCont
       listPrefix "+0x".data r1 &&
         !((r1.drop 3).takeWhile isHexChar).isEmpty &&
         (match (r1.drop 3).dropWhile isHexChar with
          | '/' :: r3 =>
            !(r3.takeWhile isHexXChar).isEmpty &&
              (match r3.dropWhile isHexXChar with
               | [] => true
               | d :: _ => !pyWordChar d)
          | _ => false))

/-- `R_FRAME_HINT`
(`^[ \t]*(?:__sys_|__x64_sys_|do_syscall_|entry_SYSCALL_|dump_stack|ret_from_|end_report|check_|kasan_).*$`,
case-sensitive). -/
def frameHint (s : String) : Bool :=
  let l := s.data.dropWhile (fun c => c = ' ' || c = '\t')
  listPrefix "__sys_".data l || listPrefix "__x64_sys_".data l ||
  listPrefix "do_syscall_".data l || listPrefix "entry_SYSCALL_".data l ||
  listPrefix "dump_stack".data l || listPrefix "ret_from_".data l ||
  listPrefix "end_report".data l || listPrefix "check_".data l ||
  listPrefix "kasan_".data l

/-- The `_is_frame` test of `ordering.py`: normalize the line, require an
alphabetic / `_` / `<` first character, then match either frame pattern. -/
def isFrame (line : String) : Bool :=
  let s := normalizeForMatch line
  match s.data with
  | [] => false
  | c :: _ => (c.isAlpha || c = '_' || c = '<') && (frameStd s || frameHint s)

/-! ## ordering.py — the canonical orderer -/

/-- Python `s.rstrip("\r")` applied to each raw candidate line. -/
def rstripCR (s : String) : String :=
  String.mk (rstripP (· = '\r') s.data)

/-- Indexing `raw[i]` with the empty string as default (a stable,
structurally recursive form of `List.getD`). -/
def getLn : List String → Nat → String
  | [], _ => ""
  | s :: _, 0 => s
  | _ :: t, n + 1 => getLn t n

/-- Frame loop of `_find_ct_blocks_with_hoist`: collect consecutive frame
line indices from `j`, stopping at a blank line, at a diagnostics /
panic / offset / reboot header, or at any non-frame line; returns the
collected indices and the stop position. -/
def framesScan (raw : List String) (n : Nat) : Nat → Nat → List Nat × Nat
  | 0, j => ([], j)
  | fuel + 1, j =>
    if j < n then
      let s := getLn raw j
      if pyStrip s = "" then ([], j)
      else if isAllocLine s || isFreedLine s || isBuggyLine s || isMemLine s ||
          isPageLine s || isPanicLine s || isOffsLine s || isRebootLine s then
        ([], j)
      else if isFrame s then
        let p := framesScan raw n fuel (j + 1)
        (j :: p.1, p.2)
      else ([], j)
    else ([], j)

/-- Register-line loop of `_collect_regs_tail`. -/
def regsScan (raw : List String) (n : Nat) : Nat → Nat → List Nat × Nat
  | 0, j => ([], j)
  | fuel + 1, j =>
    if j < n ∧ isRegsLine (getLn raw j) = true then
      let p := regsScan raw n fuel (j + 1)
      (j :: p.1, p.2)
    else ([], j)

/-- The `_collect_regs_tail` helper: an optional `RIP:` line, an optional
`Code:` line, then any run of register lines. -/
def collectRegsTail (raw : List String) (n : Nat) (j : Nat) :
    List Nat × Nat :=
  if j < n ∧ isRipLine (getLn raw j) = true then
    if j + 1 < n ∧ isCodeLine (getLn raw (j + 1)) = true then
      let p := regsScan raw n n (j + 2)
      (j :: (j + 1) :: p.1, p.2)
    else
      let p := regsScan raw n n (j + 1)
      (j :: p.1, p.2)
  else ([], j)

/-- Forward scan for a later `</TASK>` to hoist: stop at the scan bound,
at a `</TASK>` (found), or at another `Call Trace:` header (not found). -/
def scanEnd (raw : List String) (bound : Nat) : Nat → Nat → Option Nat
  | 0, _ => none
  | fuel + 1, k =>
    if k < bound then
      if isTEnd (getLn raw k) then some k
      else if isCTHeader (getLn raw k) then none
      else scanEnd raw bound fuel (k + 1)
    else none

/-- Main loop of `_find_ct_blocks_with_hoist`: at each `Call Trace:`
header, take an optional immediate `<TASK>`, the frame run, the
RIP/Code/registers tail, and a hoisted `</TASK>` found within 400 lines
(not crossing another header); scanning then resumes *after the frame
tail* (`i = j + 1`), so a header at the stop position itself is skipped. -/
def ctBlocksAux (raw : List String) (n : Nat) : Nat → Nat → List (List Nat)
  | 0, _ => []
  | fuel + 1, i =>
    if i < n then
      if isCTHeader (getLn raw i) then
        let tko :=
          if i + 1 < n ∧ isTOpen (getLn raw (i + 1)) = true
          then ([i + 1], i + 2) else ([], i + 1)
        let fr := framesScan raw n n tko.2
        let rg := collectRegsTail raw n fr.2
        let e := scanEnd raw (min n (i + 1 + 400)) (n + 401) rg.2
        let emit := i :: tko.1 ++ fr.1 ++ rg.1 ++
          (match e with
           | some k => [k]
           | none => [])
        emit :: ctBlocksAux raw n fuel (rg.2 + 1)
      else ctBlocksAux raw n fuel (i + 1)
    else []

/-- The call-trace blocks of a candidate (`_find_ct_blocks_with_hoist`
with `max_scan = 400`); each block is its `emit` index list, which is
also its `used` index set. -/
def ctBlocks (raw : List String) : List (List Nat) :=
  ctBlocksAux raw raw.length (raw.length + 1) 0

/-- The section buckets of the orderer (`ORDER`). -/
structure Buckets where
  bug : List String := []
  rw : List String := []
  cpu : List String := []
  hw : List String := []
  calltrace : List String := []
  alloc : List String := []
  freed : List String := []
  buggy : List String := []
  mem : List String := []
  page : List String := []
  ripcode : List String := []
  regs : List String := []
  reboot : List String := []
  other : List String := []

/-- Placement of the CALLTRACE bucket: blocks are concatenated with a
single empty-line separator when the bucket is nonempty and does not
already end in one. -/
def placeCT (raw : List String) (blocks : List (List Nat)) : List String :=
  blocks.foldl
    (fun acc b =>
      let blockLines := b.map (fun idx => getLn raw idx)
      match acc.getLast? with
      | none => blockLines
      | some last =>
        if last = "" then acc ++ blockLines else acc ++ [""] ++ blockLines)
    []

/-- Continuation of `collect_block` after its start line: collect lines
(blank included) until a hard-break header or the end of input. -/
def collectCont (raw : List String) (n : Nat) : Nat → Nat → Nat × List String
  | 0, j => (j, [])
  | fuel + 1, j =>
    if j < n then
      if isHardBreak (getLn raw j) then (j, [])
      else
        let p := collectCont raw n fuel (j + 1)
        (p.1, getLn raw j :: p.2)
    else (j, [])

/-- The `collect_block` helper of `order_normalize`: the start line is
always taken, then lines up to the next hard break. -/
def collectBlock (raw : List String) (n : Nat) (start : Nat) :
    Nat × List String :=
  let p := collectCont raw n n (start + 1)
  (p.1, getLn raw start :: p.2)

/-- Bucket routing of the RIP/Code/registers block. -/
def routeRegs (B : Buckets) (blk : List String) : Buckets :=
  blk.foldl
    (fun B2 ln =>
      if isRipLine ln || isCodeLine ln then
        { B2 with ripcode := B2.ripcode ++ [ln] }
      else if isRegsLine ln then { B2 with regs := B2.regs ++ [ln] }
      else B2)
    B

/-- Main bucketing loop of `order_normalize`: lines used by call-trace
blocks and blank lines are skipped; single-line headers are appended to
their buckets; multi-line headers collect a `collect_block`; stray frame
lines are dropped; everything else lands in the `_OTHER` bucket. -/
def buckAux (raw : List String) (n : Nat) (ctUsed : List Nat) :
    Nat → Nat → Buckets → Buckets
  | 0, _, B => B
  | fuel + 1, i, B =>
    if i < n then
      if ctUsed.contains i || pyStrip (getLn raw i) = "" then
        buckAux raw n ctUsed fuel (i + 1) B
      else
        let s := getLn raw i
        if isBugLine s then
          buckAux raw n ctUsed fuel (i + 1) { B with bug := B.bug ++ [s] }
        else if isRWLine s then
          buckAux raw n ctUsed fuel (i + 1) { B with rw := B.rw ++ [s] }
        else if isCpuLine s then
          buckAux raw n ctUsed fuel (i + 1) { B with cpu := B.cpu ++ [s] }
        else if isHwLine s then
          buckAux raw n ctUsed fuel (i + 1) { B with hw := B.hw ++ [s] }
        else if isAllocLine s then
          let p := collectBlock raw n i
          buckAux raw n ctUsed fuel p.1 { B with alloc := B.alloc ++ p.2 }
        else if isFreedLine s then
          let p := collectBlock raw n i
          buckAux raw n ctUsed fuel p.1 { B with freed := B.freed ++ p.2 }
        else if isBuggyLine s then
          let p := collectBlock raw n i
          buckAux raw n ctUsed fuel p.1 { B with buggy := B.buggy ++ p.2 }
        else if isMemLine s then
          let p := collectBlock raw n i
          buckAux raw n ctUsed fuel p.1 { B with mem := B.mem ++ p.2 }
        else if isPageLine s then
          let p := collectBlock raw n i
          buckAux raw n ctUsed fuel p.1 { B with page := B.page ++ p.2 }
        else if isRipLine s || isCodeLine s || isRegsLine s then
          let p := collectBlock raw n i
          buckAux raw n ctUsed fuel p.1 (routeRegs B p.2)
        else if isRebootLine s then
          buckAux raw n ctUsed fuel (i + 1) { B with reboot := B.reboot ++ [s] }
        else if isFrame s then
          buckAux raw n ctUsed fuel (i + 1) B
        else
          buckAux raw n ctUsed fuel (i + 1) { B with other := B.other ++ [s] }
    else B

/-- The `_dedupe` helper: keep the first line of each
`_normalize_for_match` equivalence class. -/
def dedupeNorm (seen : List String) : List String → List String
  | [] => []
  | ln :: rest =>
    let k := normalizeForMatch ln
    if seen.contains k then dedupeNorm seen rest
    else ln :: dedupeNorm (k :: seen) rest

/-- `_dedupe` from an empty seen set. -/
def dedupeLines (lines : List String) : List String := dedupeNorm [] lines

/-- The `_score_cpu` key: (has a `comm:` marker, normalized length). -/
def scoreCpu (s : String) : Nat × Nat :=
  (if strContains (lowerStr s) "comm:" then 1 else 0,
   (normalizeForMatch s).length)

/-- The `_score_hw` key: (0, normalized length). -/
def scoreHw (s : String) : Nat × Nat := (0, (normalizeForMatch s).length)

/-- Strict lexicographic comparison of score tuples. -/
def tupleLt (a b : Nat × Nat) : Bool :=
  a.1 < b.1 || (a.1 = b.1 && a.2 < b.2)

/-- Python `max(lines, key=key)`: keeps the first maximal element. -/
def pyMaxBy (key : String → Nat × Nat) (x : String) (xs : List String) :
    String :=
  xs.foldl (fun best c => if tupleLt (key best) (key c) then c else best) x

/-- The `_pick_best` helper: empty and singleton lists pass through, CPU
and hardware-name buckets keep their best-scoring line. -/
def pickBest (lines : List String) (which : String) : List String :=
  match lines with
  | [] => []
  | [x] => [x]
  | x :: xs =>
    if which = "CPU" then [pyMaxBy scoreCpu x xs]
    else if which = "HW" then [pyMaxBy scoreHw x xs]
    else [x]

/-- The `emit_block` helper: drop blank lines, dedupe, and append to the
output after a single empty separator line when needed. -/
def emitBlock (out : List String) (lines : List String) : List String :=
  let l2 := dedupeLines (lines.filter (fun x => pyStrip x ≠ ""))
  if l2.isEmpty then out
  else
    match out.getLast? with
    | none => l2
    | some last => if last = "" then out ++ l2 else out ++ [""] ++ l2

/-- Emission of all buckets in the canonical `ORDER`. -/
def emitBuckets (B : Buckets) : List String :=
  emitBlock
    (emitBlock
      (emitBlock
        (emitBlock
          (emitBlock
            (emitBlock
              (emitBlock
                (emitBlock
                  (emitBlock
                    (emitBlock
                      (emitBlock
                        (emitBlock
                          (emitBlock (emitBlock [] B.bug) B.rw)
                          (pickBest B.cpu "CPU"))
                        (pickBest B.hw "HW"))
                      B.calltrace)
                    B.alloc)
                  B.freed)
                B.buggy)
              B.mem)
            B.page)
          B.ripcode)
        B.regs)
      B.reboot)
    B.other

/-- Final tidy pass of `order_normalize`: a `Call Trace:` header opens a
call-trace region, a `</TASK>` inside it closes it, and task markers
outside any region are dropped. -/
def tidyAux : Bool → List String → List String
  | _, [] => []
  | inCt, ln :: rest =>
    if isCTHeader ln then ln :: tidyAux true rest
    else if inCt then ln :: tidyAux (if isTEnd ln then false else true) rest
    else if isTOpen ln || isTEnd ln then tidyAux false rest
    else ln :: tidyAux false rest

/-- Blank compression of `order_normalize`: nonblank lines pass through;
a blank run becomes one empty line, but only after some line was kept. -/
def cleanAux : Bool → Bool → List String → List String
  | _, _, [] => []
  | pb, ne, ln :: rest =>
    if pyStrip ln ≠ "" then ln :: cleanAux false true rest
    else if !pb && ne then "" :: cleanAux true ne rest
    else cleanAux true ne rest

/-- Leading `while cleaned[0] == ""` pops. -/
def dropLeadEmpty (l : List String) : List String := l.dropWhile (· = "")

/-- Trailing `while cleaned[-1] == ""` pops. -/
def dropTrailEmpty (l : List String) : List String :=
  (l.reverse.dropWhile (· = "")).reverse

/-- The `order_normalize` canonicalizer of `ordering.py`. -/
def order_normalize (candidate_text : String) : String :=
  if candidate_text = "" then ""
  else
    let raw := (pySplitlines candidate_text).map rstripCR
    let n := raw.length
    let blocks := ctBlocks raw
    let ctUsed := blocks.flatten
    let B1 : Buckets := { calltrace := placeCT raw blocks }
    let B2 := buckAux raw n ctUsed (n + 1) 0 B1
    let out := emitBuckets B2
    let final := tidyAux false out
    String.intercalate "\n" (dropTrailEmpty (dropLeadEmpty (cleanAux false false final)))


/-! ## Round-trip lemmas for splitlines and join -/

/-- A list that fails `p` everywhere is inert under `dropWhile`. -/
theorem dropWhile_eq_self_of_all {α : Type} (p : α → Bool) (l : List α)
    (h : ∀ c ∈ l, p c = false) : l.dropWhile p = l := by
  cases l with
  | nil => rfl
  | cons c t =>
    rw [List.dropWhile_cons_of_neg (by simp [h c (List.mem_cons_self c t)])]

/-- The head of a `dropWhile` residue fails the predicate. -/
theorem dropWhile_head_false {α : Type} (p : α → Bool) :
    ∀ (l : List α) (c0 : α) (t0 : List α),
      l.dropWhile p = c0 :: t0 → p c0 = false := by
  intro l
  induction l with
  | nil => intro c0 t0 h; simp at h
  | cons a t ih =>
    intro c0 t0 h
    by_cases hp : p a = true
    · rw [List.dropWhile_cons_of_pos hp] at h
      exact ih c0 t0 h
    · rw [List.dropWhile_cons_of_neg hp] at h
      injection h with h1 h2
      subst h1
      simpa using hp

/-- An empty strip means every character satisfied the class. -/
theorem all_of_stripP_eq_nil (p : Char → Bool) (l : List Char)
    (h : stripP p l = []) : ∀ c ∈ l, p c = true := by
  unfold stripP rstripP lstripP at h
  rcases hm : l.dropWhile p with _ | ⟨c0, t0⟩
  · exact fun c hc => by simpa using List.dropWhile_eq_nil_iff.1 hm c hc
  · exfalso
    rw [hm] at h
    rcases hd : (c0 :: t0).reverse.dropWhile p with _ | ⟨z, zs⟩
    · have hall : ∀ c ∈ (c0 :: t0).reverse, p c = true :=
        fun c hc => by simpa using List.dropWhile_eq_nil_iff.1 hd c hc
      have hc0 : p c0 = true :=
        hall c0 (List.mem_reverse.2 (List.mem_cons_self c0 t0))
      rw [dropWhile_head_false p l c0 t0 hm] at hc0
      exact Bool.false_ne_true hc0
    · rw [hd] at h
      simp at h

/-- Stepping `pySplitAux` over a non-boundary character. -/
theorem pySplitAux_cons_of_not_break (c : Char) (hc : pyLineBreak c = false)
    (acc l : List Char) :
    pySplitAux acc (c :: l) = pySplitAux (c :: acc) l := by
  rw [pySplitAux.eq_3 acc c l
    (fun r hcr _ => by subst hcr; simp [pyLineBreak] at hc)]
  rw [if_neg (by simp [hc])]

/-- Stepping `pySplitAux` over a bare newline. -/
theorem pySplitAux_cons_newline (acc l : List Char) :
    pySplitAux acc ('\n' :: l) = String.mk acc.reverse :: pySplitAux [] l := by
  rw [pySplitAux.eq_3 acc '\n' l (fun r hcr _ => by simp at hcr)]
  rw [if_pos (by decide)]

/-- Consuming a boundary-free chunk just accumulates it. -/
theorem pySplitAux_skip (x : List Char)
    (hx : ∀ c ∈ x, pyLineBreak c = false) :
    ∀ (acc rest : List Char),
      pySplitAux acc (x ++ rest) = pySplitAux (x.reverse ++ acc) rest := by
  induction x with
  | nil => intro acc rest; simp
  | cons c t ih =>
    intro acc rest
    rw [List.cons_append,
      pySplitAux_cons_of_not_break c (hx c (List.mem_cons_self c t)),
      ih (fun d hd => hx d (List.mem_cons_of_mem c hd))]
    simp

/-- Every line produced by `pySplitAux` is free of boundary characters. -/
theorem pySplitAux_lines_no_break :
    ∀ (acc l : List Char), (∀ c ∈ acc, pyLineBreak c = false) →
      ∀ ln ∈ pySplitAux acc l, ∀ c ∈ ln.data, pyLineBreak c = false := by
  intro acc l
  induction acc, l using pySplitAux.induct with
  | case1 acc hemp =>
    intro hacc ln hln
    rw [pySplitAux.eq_1, if_pos hemp] at hln
    simp at hln
  | case2 acc hemp =>
    intro hacc ln hln c hc
    rw [pySplitAux.eq_1, if_neg hemp] at hln
    rw [List.mem_singleton] at hln
    subst hln
    exact hacc c (List.mem_reverse.1 hc)
  | case3 acc rest ih =>
    intro hacc ln hln c hc
    rw [pySplitAux.eq_2] at hln
    rcases List.mem_cons.1 hln with h | h
    · subst h
      exact hacc c (List.mem_reverse.1 hc)
    · exact ih (by simp) ln h c hc
  | case4 acc c0 rest hguard hbr ih =>
    intro hacc ln hln c hc
    rw [pySplitAux.eq_3 acc c0 rest hguard, if_pos hbr] at hln
    rcases List.mem_cons.1 hln with h | h
    · subst h
      exact hacc c (List.mem_reverse.1 hc)
    · exact ih (by simp) ln h c hc
  | case5 acc c0 rest hguard hbr ih =>
    intro hacc ln hln c hc
    rw [pySplitAux.eq_3 acc c0 rest hguard, if_neg hbr] at hln
    refine ih ?_ ln hln c hc
    intro d hd
    rcases List.mem_cons.1 hd with h | h
    · subst h; simpa using hbr
    · exact hacc d h

/-- Lines of `pySplitlines` contain no boundary characters. -/
theorem pySplitlines_no_break (s : String) :
    ∀ ln ∈ pySplitlines s, ∀ c ∈ ln.data, pyLineBreak c = false :=
  pySplitAux_lines_no_break [] s.data (by simp)

/-- Data of an intercalation (inner loop form). -/
theorem intercalate_go_data (s : String) :
    ∀ (l : List String) (acc : String),
      (String.intercalate.go acc s l).data =
        acc.data ++ (l.map (fun x => s.data ++ x.data)).flatten := by
  intro l
  induction l with
  | nil => intro acc; simp [String.intercalate.go]
  | cons b t ih =>
    intro acc
    rw [String.intercalate.go, ih]
    simp

/-- Data of `String.intercalate` on a nonempty list. -/
theorem intercalate_data (s a : String) (t : List String) :
    (String.intercalate s (a :: t)).data =
      a.data ++ (t.map (fun x => s.data ++ x.data)).flatten := by
  rw [String.intercalate, intercalate_go_data]

/-- Splitting the newline-joined tail chunks recovers the lines, provided
the overall last line is nonempty. -/
theorem pySplitAux_chunks :
    ∀ (t : List String) (acc : List Char),
      (∀ ln ∈ t, ∀ c ∈ ln.data, pyLineBreak c = false) →
      (t.getLast?.getD (String.mk acc.reverse) ≠ "") →
      pySplitAux acc ((t.map (fun x => '\n' :: x.data)).flatten) =
        String.mk acc.reverse :: t := by
  intro t
  induction t with
  | nil =>
    intro acc hbf hl
    simp only [List.map_nil, List.flatten_nil]
    rw [pySplitAux.eq_1]
    have hne : acc.isEmpty = false := by
      rcases acc with _ | _
      · simp at hl
      · rfl
    rw [hne]
    simp
  | cons b t ih =>
    intro acc hbf hl
    simp only [List.map_cons, List.flatten_cons, List.cons_append]
    rw [pySplitAux_cons_newline,
      pySplitAux_skip b.data (hbf b (List.mem_cons_self b t)) [] _,
      List.append_nil]
    congr 1
    have hbt : ∀ ln ∈ t, ∀ c ∈ ln.data, pyLineBreak c = false :=
      fun ln hln => hbf ln (List.mem_cons_of_mem b hln)
    have hlt : t.getLast?.getD (String.mk b.data.reverse.reverse) ≠ "" := by
      rcases t with _ | ⟨c1, t1⟩
      · simp only [List.getLast?_nil, Option.getD_none, List.reverse_reverse]
        simpa using hl
      · rw [List.getLast?_cons_cons] at hl
        rcases hz : (c1 :: t1).getLast? with _ | z
        · rw [List.getLast?_eq_none_iff] at hz
          simp at hz
        · rw [hz] at hl
          simpa using hl
    have := ih b.data.reverse hbt hlt
    simpa using this

/-- Splitting the newline-join of boundary-free lines whose last line is
nonempty recovers exactly those lines. -/
theorem pySplitlines_intercalate (L : List String)
    (hbf : ∀ ln ∈ L, ∀ c ∈ ln.data, pyLineBreak c = false)
    (hlast : L.getLast? ≠ some "") :
    pySplitlines (String.intercalate "\n" L) = L := by
  rcases L with _ | ⟨a, t⟩
  · rfl
  · rw [pySplitlines, intercalate_data]
    have ha : ∀ c ∈ a.data, pyLineBreak c = false :=
      hbf a (List.mem_cons_self a t)
    rw [pySplitAux_skip a.data ha [] _, List.append_nil]
    have hlt : t.getLast?.getD (String.mk a.data.reverse.reverse) ≠ "" := by
      rcases t with _ | ⟨c1, t1⟩
      · simp only [List.getLast?_nil, Option.getD_none, List.reverse_reverse]
        intro hcon
        refine hlast ?_
        simp only [List.getLast?_singleton]
        exact congrArg some hcon
      · rcases hz : (c1 :: t1).getLast? with _ | z
        · rw [List.getLast?_eq_none_iff] at hz
          simp at hz
        · rw [List.getLast?_cons_cons, hz] at hlast
          simpa using hlast
    have := pySplitAux_chunks t a.data.reverse
      (fun ln hln => hbf ln (List.mem_cons_of_mem a hln)) hlt
    simpa using this

/-! ## Claims C4 and C3 -/

/-- C4 (code bug): kernel-panic and kernel-offset lines were claimed to
act only as block terminators and never be emitted — the module docstring
and the inline comments of `order_normalize` say exactly this — but the
bucketing loop has no case for them, so a standalone panic or offset line
falls through to the `_OTHER` bucket and is emitted verbatim. -/
theorem order_normalize_emits_panic :
    isPanicLine "Kernel panic - not syncing: test" = true ∧
    order_normalize "Kernel panic - not syncing: test" =
      "Kernel panic - not syncing: test" ∧
    isOffsLine "Kernel Offset: 0x1000" = true ∧
    order_normalize "Kernel Offset: 0x1000" = "Kernel Offset: 0x1000" := by
  exact ⟨by decide, by decide, by decide, by decide⟩

/-- C3 is false as stated: `order_normalize` is not idempotent.  On
`"hello\nAllocated by task 123:"` the first pass emits the ALLOC block,
a blank separator, and the `_OTHER` line `hello`; the second pass parses
`collect_block` across the blank separator (blank lines are not hard
breaks), absorbs `hello` into the ALLOC block and drops the separator, so
the second output differs from the first. -/
theorem order_normalize_not_idempotent :
    order_normalize (order_normalize "hello\nAllocated by task 123:") ≠
      order_normalize "hello\nAllocated by task 123:" := by
  decide

/-- Unpacking of `isHardBreak s = false` into its components. -/
theorem hard_false (s : String) (h : isHardBreak s = false) :
    isBugLine s = false ∧ isRWLine s = false ∧ isCpuLine s = false ∧
    isHwLine s = false ∧ isCTHeader s = false ∧ isAllocLine s = false ∧
    isFreedLine s = false ∧ isBuggyLine s = false ∧ isMemLine s = false ∧
    isPageLine s = false ∧ isPanicLine s = false ∧ isRipLine s = false ∧
    isCodeLine s = false ∧ isOffsLine s = false ∧ isRebootLine s = false ∧
    isTOpen s = false ∧ isTEnd s = false := by
  unfold isHardBreak at h
  simp only [Bool.or_eq_false_iff] at h
  tauto

/-- Indexing with a default inside the list is membership. -/
theorem getD_mem_of_lt {l : List String} {i : Nat} (h : i < l.length) :
    l.getD i "" ∈ l := by
  rw [List.getD_eq_getElem l "" h]
  exact l.getElem_mem h

/-- A line without carriage returns is inert under `rstripCR`. -/
theorem rstripCR_eq_self (ln : String)
    (h : ∀ c ∈ ln.data, pyLineBreak c = false) : rstripCR ln = ln := by
  unfold rstripCR rstripP
  have hall : ∀ c ∈ ln.data.reverse, (c = '\r' : Bool) = false := by
    intro c hc
    have hb := h c (List.mem_reverse.1 hc)
    simp only [decide_eq_false_iff_not]
    rintro rfl
    simp [pyLineBreak] at hb
  rw [dropWhile_eq_self_of_all _ _ hall, List.reverse_reverse]

/-- Lines of a sub-split candidate keep their identity under the
`rstrip("\r")` pass of `order_normalize`. -/
theorem map_rstripCR_splitlines (x : String) :
    (pySplitlines x).map rstripCR = pySplitlines x := by
  nth_rewrite 2 [show pySplitlines x = (pySplitlines x).map id from
    (List.map_id _).symm]
  exact List.map_congr_left fun ln hln =>
    rstripCR_eq_self ln (pySplitlines_no_break x ln hln)

/-- With no `Call Trace:` headers anywhere, the block finder is empty. -/
theorem ctBlocksAux_eq_nil (raw : List String) (n : Nat)
    (h : ∀ i, isCTHeader (getLn raw i) = false) :
    ∀ fuel i, ctBlocksAux raw n fuel i = [] := by
  intro fuel
  induction fuel with
  | zero => intro i; rfl
  | succ fuel ih =>
    intro i
    rw [ctBlocksAux]
    rw [h i]
    by_cases hi : i < n
    · rw [if_pos hi]
      simp only [Bool.false_eq_true, if_false]
      exact ih (i + 1)
    · rw [if_neg hi]

/-- Elements of a deduplicated list come from the input. -/
theorem mem_of_mem_dedupeNorm :
    ∀ (l : List String) (seen : List String) (ln : String),
      ln ∈ dedupeNorm seen l → ln ∈ l := by
  intro l
  induction l with
  | nil => intro seen ln h; simp [dedupeNorm] at h
  | cons a t ih =>
    intro seen ln h
    rw [dedupeNorm] at h
    split at h
    · exact List.mem_cons_of_mem a (ih _ ln h)
    · rcases List.mem_cons.1 h with h1 | h1
      · subst h1; exact List.mem_cons_self _ _
      · exact List.mem_cons_of_mem a (ih _ ln h1)

/-- Deduplication is idempotent. -/
theorem dedupeNorm_idem :
    ∀ (l : List String) (seen : List String),
      dedupeNorm seen (dedupeNorm seen l) = dedupeNorm seen l := by
  intro l
  induction l with
  | nil => intro seen; rfl
  | cons a t ih =>
    intro seen
    rw [dedupeNorm]
    split
    · exact ih seen
    · rename_i hns
      rw [dedupeNorm]
      rw [if_neg hns]
      rw [ih (normalizeForMatch a :: seen)]

/-- The tidy pass is the identity on marker-free, header-free lines. -/
theorem tidyAux_eq_self (l : List String)
    (h : ∀ ln ∈ l, isCTHeader ln = false ∧ isTOpen ln = false ∧
      isTEnd ln = false) : tidyAux false l = l := by
  induction l with
  | nil => rfl
  | cons a t ih =>
    obtain ⟨h1, h2, h3⟩ := h a (List.mem_cons_self a t)
    rw [tidyAux]
    rw [h1]
    simp only [Bool.false_eq_true, if_false]
    rw [if_neg (by simp [h2, h3])]
    rw [ih (fun ln hln => h ln (List.mem_cons_of_mem a hln))]

/-- The blank-compression pass is the identity on blank-free lines. -/
theorem cleanAux_eq_self (l : List String)
    (h : ∀ ln ∈ l, pyStrip ln ≠ "") :
    ∀ pb ne, cleanAux pb ne l = l := by
  induction l with
  | nil => intro pb ne; rfl
  | cons a t ih =>
    intro pb ne
    rw [cleanAux]
    rw [if_pos (by simpa using h a (List.mem_cons_self a t))]
    rw [ih (fun ln hln => h ln (List.mem_cons_of_mem a hln))]

/-- Dropping leading empties is the identity on empty-free lists. -/
theorem dropLeadEmpty_eq_self (l : List String)
    (h : ∀ ln ∈ l, ln ≠ "") : dropLeadEmpty l = l :=
  dropWhile_eq_self_of_all _ l (fun ln hln => by
    simpa using h ln hln)

/-- Dropping trailing empties is the identity on empty-free lists. -/
theorem dropTrailEmpty_eq_self (l : List String)
    (h : ∀ ln ∈ l, ln ≠ "") : dropTrailEmpty l = l := by
  unfold dropTrailEmpty
  rw [dropWhile_eq_self_of_all _ _ (fun ln hln => by
    simpa using h ln (List.mem_reverse.1 hln))]
  exact l.reverse_reverse

/-- A plain content line for the orderer: it matches no terminator
header, no register line (`R_REGS` is not in `_HARD` but still routes to
the register bucket), and is not a stack frame — such lines can only land
in the `_OTHER` bucket. -/
def plainLine (ln : String) : Bool :=
  !isHardBreak ln && !isRegsLine ln && !isFrame ln

/-- Indexing inside the list is membership. -/
theorem getLn_mem : ∀ (l : List String) (i : Nat), i < l.length →
    getLn l i ∈ l := by
  intro l
  induction l with
  | nil => intro i hi; simp at hi
  | cons a t ih =>
    intro i hi
    cases i with
    | zero => exact List.mem_cons_self _ _
    | succ n =>
      exact List.mem_cons_of_mem a (ih n (by simpa using hi))

/-- Dropping to an interior index exposes `getLn`. -/
theorem drop_eq_getLn_cons : ∀ (l : List String) (i : Nat), i < l.length →
    l.drop i = getLn l i :: l.drop (i + 1) := by
  intro l
  induction l with
  | nil => intro i hi; simp at hi
  | cons a t ih =>
    intro i hi
    cases i with
    | zero => rfl
    | succ n =>
      rw [List.drop_succ_cons, ih n (by simpa using hi)]
      rfl

/-- On plain input every nonblank line lands in `_OTHER`, in order. -/
theorem buckAux_plain (raw : List String)
    (hplain : ∀ ln ∈ raw, plainLine ln = true) :
    ∀ (fuel i : Nat) (B : Buckets), raw.length ≤ i + fuel →
      buckAux raw raw.length [] fuel i B =
        { B with other :=
            B.other ++ (raw.drop i).filter (fun ln => pyStrip ln ≠ "") } := by
  intro fuel
  induction fuel with
  | zero =>
    intro i B hfuel
    rw [buckAux, List.drop_eq_nil_of_le (by omega)]
    simp
  | succ fuel ih =>
    intro i B hfuel
    by_cases hi : i < raw.length
    · have hmem := getLn_mem raw i hi
      have hpl := hplain _ hmem
      simp only [plainLine, Bool.and_eq_true, Bool.not_eq_true'] at hpl
      obtain ⟨⟨hhard, hregs⟩, hfrm⟩ := hpl
      obtain ⟨hb, hrw, hcpu, hhw, hct, hal, hfr, hbg, hmm, hpg, hpn, hrip,
        hcode, hoffs, hrbt, hto, hte⟩ := hard_false _ hhard
      have hdrop := drop_eq_getLn_cons raw i hi
      rw [buckAux, if_pos hi]
      by_cases hblank : pyStrip (getLn raw i) = ""
      · rw [if_pos (by rw [hblank]; simp)]
        rw [ih (i + 1) B (by omega)]
        rw [hdrop, List.filter_cons]
        rw [if_neg (by simp [hblank])]
      · rw [if_neg (by simpa using hblank)]
        simp only [hb, hrw, hcpu, hhw, hal, hfr, hbg, hmm, hpg, hrip, hcode,
          hregs, hrbt, hfrm, Bool.false_eq_true, if_false, Bool.or_self,
          Bool.false_or]
        rw [ih (i + 1) { B with other := B.other ++ [getLn raw i] }
          (by omega)]
        rw [hdrop, List.filter_cons]
        rw [if_pos (by simp [hblank])]
        simp [List.append_assoc]
    · rw [buckAux, if_neg hi, List.drop_eq_nil_of_le (by omega)]
      simp

/-- With only the `_OTHER` bucket inhabited, emission reduces to the
blank filter and the deduplication of that bucket. -/
theorem emitBuckets_other_only (o : List String) :
    emitBuckets { other := o } =
      dedupeLines (o.filter (fun x => pyStrip x ≠ "")) := by
  have h1 : emitBuckets { other := o } = emitBlock [] o := rfl
  rw [h1]
  unfold emitBlock
  by_cases h : (dedupeLines (o.filter (fun x => pyStrip x ≠ ""))).isEmpty
  · rw [if_pos h]
    exact (List.isEmpty_iff.1 h).symm
  · rw [if_neg h]
    rfl

/-- Out-of-range indexing yields the empty default. -/
theorem getLn_default : ∀ (l : List String) (i : Nat), l.length ≤ i →
    getLn l i = "" := by
  intro l
  induction l with
  | nil => intro i hi; cases i <;> rfl
  | cons a t ih =>
    intro i hi
    cases i with
    | zero => simp at hi
    | succ n => exact ih n (by simpa using hi)

/-- On plain input (no headers, no register lines, no frames), the
canonical orderer reduces to: split into lines, drop blank lines,
deduplicate by normalized form, and re-join. -/
theorem order_normalize_plain (x : String)
    (h : ∀ ln ∈ pySplitlines x, plainLine ln = true) :
    order_normalize x =
      String.intercalate "\n"
        (dedupeLines ((pySplitlines x).filter (fun ln => pyStrip ln ≠ ""))) := by
  by_cases hx : x = ""
  · subst hx; rfl
  · have hct : ctBlocks (pySplitlines x) = [] := by
      unfold ctBlocks
      apply ctBlocksAux_eq_nil
      intro i
      by_cases hi : i < (pySplitlines x).length
      · have hpl := h _ (getLn_mem _ i hi)
        simp only [plainLine, Bool.and_eq_true, Bool.not_eq_true'] at hpl
        exact (hard_false _ hpl.1.1).2.2.2.2.1
      · rw [getLn_default _ i (by omega)]
        decide
    have hplace : placeCT (pySplitlines x) [] = [] := rfl
    rw [order_normalize, if_neg hx]
    simp only [map_rstripCR_splitlines, hct, hplace, List.flatten_nil]
    rw [buckAux_plain (pySplitlines x) h (((pySplitlines x)).length + 1) 0
      { calltrace := [] } (by omega)]
    simp only [List.drop_zero, List.nil_append]
    rw [emitBuckets_other_only]
    rw [List.filter_filter]
    simp only [Bool.and_self]
    have hmemD : ∀ ln ∈ dedupeLines
        ((pySplitlines x).filter (fun ln => pyStrip ln ≠ "")),
        ln ∈ pySplitlines x ∧ pyStrip ln ≠ "" := by
      intro ln hln
      have h2 := mem_of_mem_dedupeNorm _ _ _ hln
      have h3 := List.mem_filter.1 h2
      exact ⟨h3.1, by simpa using h3.2⟩
    rw [tidyAux_eq_self _ (fun ln hln => by
      have hpl := h _ (hmemD ln hln).1
      simp only [plainLine, Bool.and_eq_true, Bool.not_eq_true'] at hpl
      obtain ⟨hcomp⟩ := hard_false _ hpl.1.1
      exact ⟨(hard_false _ hpl.1.1).2.2.2.2.1, (hard_false _ hpl.1.1).2.2.2.2.2.2.2.2.2.2.2.2.2.2.2.1,
        (hard_false _ hpl.1.1).2.2.2.2.2.2.2.2.2.2.2.2.2.2.2.2⟩)]
    rw [cleanAux_eq_self _ (fun ln hln => (hmemD ln hln).2) false false]
    rw [dropLeadEmpty_eq_self _ (fun ln hln => by
      intro hc; subst hc; exact (hmemD _ hln).2 rfl)]
    rw [dropTrailEmpty_eq_self _ (fun ln hln => by
      intro hc; subst hc; exact (hmemD _ hln).2 rfl)]

/-- C3 (amended): the orderer is idempotent on inputs all of whose lines
are plain content (blank, or matching none of the section headers /
terminators, none of the register patterns, and not stack frames): such
input is reduced to its deduplicated nonblank lines, which a second pass
maps to themselves.  On general input a second pass can differ, as the
counterexample shows. -/
theorem order_normalize_idem_plain (x : String)
    (h : ∀ ln ∈ pySplitlines x, plainLine ln = true) :
    order_normalize (order_normalize x) = order_normalize x := by
  have h1 := order_normalize_plain x h
  have hmemL : ∀ ln ∈ dedupeLines
      ((pySplitlines x).filter (fun ln => pyStrip ln ≠ "")),
      ln ∈ pySplitlines x ∧ pyStrip ln ≠ "" := by
    intro ln hln
    have h2 := mem_of_mem_dedupeNorm _ _ _ hln
    have h3 := List.mem_filter.1 h2
    exact ⟨h3.1, by simpa using h3.2⟩
  have hbf : ∀ ln ∈ dedupeLines
      ((pySplitlines x).filter (fun ln => pyStrip ln ≠ "")),
      ∀ c ∈ ln.data, pyLineBreak c = false :=
    fun ln hln => pySplitlines_no_break x ln (hmemL ln hln).1
  have hlast : (dedupeLines
      ((pySplitlines x).filter (fun ln => pyStrip ln ≠ ""))).getLast? ≠
      some "" := by
    intro hc
    have hm : ("" : String) ∈ dedupeLines
        ((pySplitlines x).filter (fun ln => pyStrip ln ≠ "")) := by
      obtain ⟨hne, he⟩ := List.mem_getLast?_eq_getLast (by rw [hc]; rfl)
      have hm0 := List.getLast_mem hne
      rw [← he] at hm0
      exact hm0
    exact (hmemL _ hm).2 rfl
  have hsplit := pySplitlines_intercalate _ hbf hlast
  rw [h1]
  rw [order_normalize_plain _ (by
    rw [hsplit]
    exact fun ln hln => h ln (hmemL ln hln).1)]
  rw [hsplit]
  congr 1
  rw [List.filter_eq_self.2 (fun ln hln => by
    simpa using (hmemL ln hln).2)]
  exact dedupeNorm_idem _ []

/-- Witness for the amended C3 at a concrete input of plain lines. -/
theorem order_normalize_idem_plain_witness :
    order_normalize (order_normalize "hello\nworld") =
      order_normalize "hello\nworld" :=
  order_normalize_idem_plain "hello\nworld" (by decide)

/-! ## Claim C10 — task markers stay inside call-trace regions -/

/-- Region automaton for the tidy pass's output: a `Call Trace:` header
opens a region; a task marker is accepted only inside an open region; a
`</TASK>` closes it; other lines change nothing. -/
def scanOk : Bool → List String → Bool
  | _, [] => true
  | st, ln :: rest =>
    if isCTHeader ln then scanOk true rest
    else if isTOpen ln || isTEnd ln then
      st && scanOk (if isTEnd ln then false else st) rest
    else scanOk st rest

/-- Final state of the region automaton. -/
def scanSt : Bool → List String → Bool
  | st, [] => st
  | st, ln :: rest =>
    scanSt
      (if isCTHeader ln then true
       else if isTOpen ln || isTEnd ln then
         (if isTEnd ln then false else st)
       else st) rest

/-- Concatenation rule for acceptance and state. -/
theorem scanOk_append :
    ∀ (l1 l2 : List String) (st : Bool),
      scanOk st (l1 ++ l2) = (scanOk st l1 && scanOk (scanSt st l1) l2) := by
  intro l1
  induction l1 with
  | nil => intro l2 st; simp [scanOk, scanSt]
  | cons ln rest ih =>
    intro l2 st
    rw [List.cons_append, scanOk, scanOk, scanSt]
    by_cases h1 : isCTHeader ln
    · rw [if_pos h1, if_pos h1, if_pos h1, ih]
    · rw [if_neg h1, if_neg h1, if_neg h1]
      by_cases h2 : (isTOpen ln || isTEnd ln) = true
      · rw [if_pos h2, if_pos h2, if_pos h2, ih, Bool.and_assoc]
      · rw [if_neg h2, if_neg h2, if_neg h2, ih]

/-- The tidy pass always produces an accepted line list, from any state. -/
theorem scanOk_tidyAux : ∀ (l : List String) (st : Bool),
    scanOk st (tidyAux st l) = true := by
  intro l
  induction l with
  | nil => intro st; rfl
  | cons ln rest ih =>
    intro st
    rw [tidyAux]
    by_cases h1 : isCTHeader ln
    · rw [if_pos h1, scanOk, if_pos h1]
      exact ih true
    · rw [if_neg h1]
      cases st with
      | true =>
        rw [if_pos rfl, scanOk, if_neg h1]
        by_cases h2 : (isTOpen ln || isTEnd ln) = true
        · rw [if_pos h2, Bool.true_and]
          exact ih _
        · rw [if_neg h2]
          have h3 : isTEnd ln = false := by
            rcases Bool.or_eq_false_iff.mp (by simpa using h2) with ⟨-, h⟩
            exact h
          have hS : (if isTEnd ln = true then false else true) = true := by
            simp [h3]
          rw [hS]
          exact ih true
      | false =>
        rw [if_neg (by simp)]
        by_cases h2 : (isTOpen ln || isTEnd ln) = true
        · rw [if_pos h2]
          exact ih false
        · rw [if_neg h2, scanOk, if_neg h1, if_neg h2]
          exact ih false

/-- Empty lines are invisible to the region automaton. -/
theorem scanOk_cons_empty (st : Bool) (rest : List String) :
    scanOk st ("" :: rest) = scanOk st rest := by
  rw [scanOk]
  rw [if_neg (by decide), if_neg (by decide)]

/-- Blank-line compression preserves acceptance when every blank line is
the canonical empty line. -/
theorem scanOk_cleanAux :
    ∀ (l : List String) (st : Bool) (pb ne : Bool),
      (∀ ln ∈ l, pyStrip ln ≠ "" ∨ ln = "") →
      scanOk st l = true → scanOk st (cleanAux pb ne l) = true := by
  intro l
  induction l with
  | nil => intro st pb ne _ _; rfl
  | cons ln rest ih =>
    intro st pb ne hP hs
    rw [cleanAux]
    by_cases hb : pyStrip ln ≠ ""
    · rw [if_pos hb]
      rw [scanOk] at hs ⊢
      by_cases h1 : isCTHeader ln
      · rw [if_pos h1] at hs ⊢
        exact ih true false true (fun m hm => hP m (List.mem_cons_of_mem ln hm)) hs
      · rw [if_neg h1] at hs ⊢
        by_cases h2 : (isTOpen ln || isTEnd ln) = true
        · rw [if_pos h2] at hs ⊢
          rw [Bool.and_eq_true] at hs
          rcases hs with ⟨hst, hs2⟩
          rw [hst] at hs2
          rw [hst, Bool.true_and]
          exact ih _ false true (fun m hm => hP m (List.mem_cons_of_mem ln hm)) hs2
        · rw [if_neg h2] at hs ⊢
          exact ih st false true (fun m hm => hP m (List.mem_cons_of_mem ln hm)) hs
    · have hln : ln = "" := by
        rcases hP ln (List.mem_cons_self ln rest) with h | h
        · exact absurd h hb
        · exact h
      subst hln
      rw [scanOk_cons_empty] at hs
      rw [if_neg (by decide)]
      by_cases hc : (!pb && ne) = true
      · rw [if_pos hc, scanOk_cons_empty]
        exact ih st true ne (fun m hm => hP m (List.mem_cons_of_mem "" hm)) hs
      · rw [if_neg hc]
        exact ih st true ne (fun m hm => hP m (List.mem_cons_of_mem "" hm)) hs

/-- Dropping leading empty lines preserves acceptance. -/
theorem scanOk_dropLeadEmpty (l : List String) (st : Bool)
    (hs : scanOk st l = true) : scanOk st (dropLeadEmpty l) = true := by
  induction l with
  | nil => exact hs
  | cons ln rest ih =>
    unfold dropLeadEmpty at ih ⊢
    by_cases h : ln = ""
    · subst h
      rw [List.dropWhile_cons_of_pos (by simp)]
      rw [scanOk_cons_empty] at hs
      exact ih hs
    · rw [List.dropWhile_cons_of_neg (by simpa using h)]
      exact hs

/-- Dropping trailing empty lines preserves acceptance. -/
theorem scanOk_dropTrailEmpty (l : List String) (st : Bool)
    (hs : scanOk st l = true) : scanOk st (dropTrailEmpty l) = true := by
  have hdecomp : l = dropTrailEmpty l ++
      (l.reverse.takeWhile (· = "")).reverse := by
    unfold dropTrailEmpty
    rw [← List.reverse_append, List.takeWhile_append_dropWhile]
    · rw [List.reverse_reverse]
  rw [hdecomp, scanOk_append, Bool.and_eq_true] at hs
  exact hs.1

/-- All lines currently stored in the buckets. -/
def bucketLines (B : Buckets) : List String :=
  B.bug ++ B.rw ++ B.cpu ++ B.hw ++ B.calltrace ++ B.alloc ++ B.freed ++
    B.buggy ++ B.mem ++ B.page ++ B.ripcode ++ B.regs ++ B.reboot ++ B.other

/-- A line predicate holding on every bucket line. -/
def BucketsP (P : String → Prop) (B : Buckets) : Prop :=
  ∀ ln ∈ bucketLines B, P ln

/-- Bucket updates preserve a line predicate when the new lines do. -/
theorem bucketsP_of_cover {P : String → Prop} (B : Buckets)
    (blk : List String) (hB : BucketsP P B) (hblk : ∀ ln ∈ blk, P ln)
    (B' : Buckets)
    (hsub : ∀ ln ∈ bucketLines B', ln ∈ bucketLines B ∨ ln ∈ blk) :
    BucketsP P B' :=
  fun ln hln => (hsub ln hln).elim (hB ln) (hblk ln)

/-- Indexed access yields a listed line or the empty default. -/
theorem getLn_P {P : String → Prop} (raw : List String)
    (hraw : ∀ ln ∈ raw, P ln) (hP0 : P "") (i : Nat) : P (getLn raw i) := by
  by_cases hi : i < raw.length
  · exact hraw _ (getLn_mem raw i hi)
  · rw [getLn_default raw i (Nat.le_of_not_lt hi)]
    exact hP0

/-- Call-trace placement produces only listed lines and empty lines. -/
theorem placeCT_P {P : String → Prop} (raw : List String)
    (hraw : ∀ ln ∈ raw, P ln) (hP0 : P "") (blocks : List (List Nat)) :
    ∀ ln ∈ placeCT raw blocks, P ln := by
  have hgen : ∀ (bs : List (List Nat)) (acc : List String),
      (∀ ln ∈ acc, P ln) →
      ∀ ln ∈ bs.foldl
        (fun acc b =>
          let blockLines := b.map (fun idx => getLn raw idx)
          match acc.getLast? with
          | none => blockLines
          | some last =>
            if last = "" then acc ++ blockLines
            else acc ++ [""] ++ blockLines)
        acc, P ln := by
    intro bs
    induction bs with
    | nil => intro acc hacc; exact hacc
    | cons b bs ih =>
      intro acc hacc
      rw [List.foldl_cons]
      refine ih _ ?_
      intro ln hln
      have hbl : ∀ m ∈ b.map (fun idx => getLn raw idx), P m := by
        intro m hm
        rcases List.mem_map.mp hm with ⟨idx, -, rfl⟩
        exact getLn_P raw hraw hP0 idx
      rcases hg : acc.getLast? with _ | last
      · rw [hg] at hln
        exact hbl ln hln
      · rw [hg] at hln
        dsimp only at hln
        by_cases he : last = ""
        · rw [if_pos he] at hln
          rcases List.mem_append.mp hln with h | h
          · exact hacc ln h
          · exact hbl ln h
        · rw [if_neg he] at hln
          rcases List.mem_append.mp hln with h | h
          · rcases List.mem_append.mp h with h2 | h2
            · exact hacc ln h2
            · rw [List.mem_singleton.mp h2]
              exact hP0
          · exact hbl ln h
  exact hgen blocks [] (by intro ln h; simp at h)

/-- Block continuation lines are listed lines or empty defaults. -/
theorem collectCont_P {P : String → Prop} (raw : List String) (n : Nat)
    (hraw : ∀ ln ∈ raw, P ln) (hP0 : P "") :
    ∀ (fuel j : Nat), ∀ ln ∈ (collectCont raw n fuel j).2, P ln := by
  intro fuel
  induction fuel with
  | zero => intro j ln h; simp [collectCont] at h
  | succ fuel ih =>
    intro j ln h
    rw [collectCont] at h
    by_cases hj : j < n
    · rw [if_pos hj] at h
      by_cases hh : isHardBreak (getLn raw j) = true
      · rw [if_pos hh] at h
        simp at h
      · rw [if_neg hh] at h
        rcases List.mem_cons.mp h with h1 | h1
        · rw [h1]
          exact getLn_P raw hraw hP0 j
        · exact ih (j + 1) ln h1
    · rw [if_neg hj] at h
      simp at h

/-- Collected blocks consist of listed lines or empty defaults. -/
theorem collectBlock_P {P : String → Prop} (raw : List String) (n : Nat)
    (hraw : ∀ ln ∈ raw, P ln) (hP0 : P "") (start : Nat) :
    ∀ ln ∈ (collectBlock raw n start).2, P ln := by
  intro ln h
  rw [collectBlock] at h
  rcases List.mem_cons.mp h with h1 | h1
  · rw [h1]
    exact getLn_P raw hraw hP0 start
  · exact collectCont_P raw n hraw hP0 n (start + 1) ln h1

/-- Register routing preserves a bucket line predicate. -/
theorem routeRegs_P {P : String → Prop} :
    ∀ (blk : List String) (B : Buckets), BucketsP P B →
      (∀ ln ∈ blk, P ln) → BucketsP P (routeRegs B blk) := by
  intro blk
  induction blk with
  | nil => intro B hB _; exact hB
  | cons ln rest ih =>
    intro B hB hblk
    have hstep : routeRegs B (ln :: rest) =
        routeRegs
          (if isRipLine ln || isCodeLine ln then
            { B with ripcode := B.ripcode ++ [ln] }
          else if isRegsLine ln then { B with regs := B.regs ++ [ln] }
          else B) rest := by
      rw [routeRegs, routeRegs, List.foldl_cons]
    rw [hstep]
    have hln : P ln := hblk ln (List.mem_cons_self ln rest)
    have hrest : ∀ m ∈ rest, P m :=
      fun m hm => hblk m (List.mem_cons_of_mem ln hm)
    by_cases h1 : (isRipLine ln || isCodeLine ln) = true
    · rw [if_pos h1]
      refine ih _ ?_ hrest
      refine bucketsP_of_cover B [ln] hB
        (fun m hm => by rw [List.mem_singleton.mp hm]; exact hln) _ ?_
      intro m hm
      simp only [bucketLines, List.mem_append] at hm ⊢
      tauto
    · rw [if_neg h1]
      by_cases h2 : isRegsLine ln = true
      · rw [if_pos h2]
        refine ih _ ?_ hrest
        refine bucketsP_of_cover B [ln] hB
          (fun m hm => by rw [List.mem_singleton.mp hm]; exact hln) _ ?_
        intro m hm
        simp only [bucketLines, List.mem_append] at hm ⊢
        tauto
      · rw [if_neg h2]
        exact ih B hB hrest

/-- The main bucketing loop preserves a bucket line predicate when the
candidate's lines satisfy it. -/
theorem buckAux_P {P : String → Prop} (raw : List String) (n : Nat)
    (ctUsed : List Nat) (hraw : ∀ ln ∈ raw, P ln) (hP0 : P "") :
    ∀ (fuel i : Nat) (B : Buckets), BucketsP P B →
      BucketsP P (buckAux raw n ctUsed fuel i B) := by
  intro fuel
  induction fuel with
  | zero => intro i B hB; exact hB
  | succ fuel ih =>
    intro i B hB
    have hone : ∀ m ∈ [getLn raw i], P m := by
      intro m hm
      rw [List.mem_singleton.mp hm]
      exact getLn_P raw hraw hP0 i
    have hcb : ∀ m ∈ (collectBlock raw n i).2, P m :=
      collectBlock_P raw n hraw hP0 i
    rw [buckAux]
    by_cases hi : i < n
    · rw [if_pos hi]
      by_cases h0 : (ctUsed.contains i || pyStrip (getLn raw i) = "")
      · rw [if_pos h0]
        exact ih _ _ hB
      rw [if_neg h0]
      dsimp only
      by_cases h1 : isBugLine (getLn raw i) = true
      · rw [if_pos h1]
        exact ih _ _ (bucketsP_of_cover B [getLn raw i] hB hone _
          (by intro m hm; simp only [bucketLines, List.mem_append] at hm ⊢;
              tauto))
      rw [if_neg h1]
      by_cases h2 : isRWLine (getLn raw i) = true
      · rw [if_pos h2]
        exact ih _ _ (bucketsP_of_cover B [getLn raw i] hB hone _
          (by intro m hm; simp only [bucketLines, List.mem_append] at hm ⊢;
              tauto))
      rw [if_neg h2]
      by_cases h3 : isCpuLine (getLn raw i) = true
      · rw [if_pos h3]
        exact ih _ _ (bucketsP_of_cover B [getLn raw i] hB hone _
          (by intro m hm; simp only [bucketLines, List.mem_append] at hm ⊢;
              tauto))
      rw [if_neg h3]
      by_cases h4 : isHwLine (getLn raw i) = true
      · rw [if_pos h4]
        exact ih _ _ (bucketsP_of_cover B [getLn raw i] hB hone _
          (by intro m hm; simp only [bucketLines, List.mem_append] at hm ⊢;
              tauto))
      rw [if_neg h4]
      by_cases h5 : isAllocLine (getLn raw i) = true
      · rw [if_pos h5]
        exact ih _ _ (bucketsP_of_cover B (collectBlock raw n i).2 hB hcb _
          (by intro m hm; simp only [bucketLines, List.mem_append] at hm ⊢;
              tauto))
      rw [if_neg h5]
      by_cases h6 : isFreedLine (getLn raw i) = true
      · rw [if_pos h6]
        exact ih _ _ (bucketsP_of_cover B (collectBlock raw n i).2 hB hcb _
          (by intro m hm; simp only [bucketLines, List.mem_append] at hm ⊢;
              tauto))
      rw [if_neg h6]
      by_cases h7 : isBuggyLine (getLn raw i) = true
      · rw [if_pos h7]
        exact ih _ _ (bucketsP_of_cover B (collectBlock raw n i).2 hB hcb _
          (by intro m hm; simp only [bucketLines, List.mem_append] at hm ⊢;
              tauto))
      rw [if_neg h7]
      by_cases h8 : isMemLine (getLn raw i) = true
      · rw [if_pos h8]
        exact ih _ _ (bucketsP_of_cover B (collectBlock raw n i).2 hB hcb _
          (by intro m hm; simp only [bucketLines, List.mem_append] at hm ⊢;
              tauto))
      rw [if_neg h8]
      by_cases h9 : isPageLine (getLn raw i) = true
      · rw [if_pos h9]
        exact ih _ _ (bucketsP_of_cover B (collectBlock raw n i).2 hB hcb _
          (by intro m hm; simp only [bucketLines, List.mem_append] at hm ⊢;
              tauto))
      rw [if_neg h9]
      by_cases h10 : (isRipLine (getLn raw i) || isCodeLine (getLn raw i) ||
          isRegsLine (getLn raw i)) = true
      · rw [if_pos h10]
        exact ih _ _ (routeRegs_P _ B hB hcb)
      rw [if_neg h10]
      by_cases h11 : isRebootLine (getLn raw i) = true
      · rw [if_pos h11]
        exact ih _ _ (bucketsP_of_cover B [getLn raw i] hB hone _
          (by intro m hm; simp only [bucketLines, List.mem_append] at hm ⊢;
              tauto))
      rw [if_neg h11]
      by_cases h12 : isFrame (getLn raw i) = true
      · rw [if_pos h12]
        exact ih _ _ hB
      rw [if_neg h12]
      exact ih _ _ (bucketsP_of_cover B [getLn raw i] hB hone _
        (by intro m hm; simp only [bucketLines, List.mem_append] at hm ⊢;
            tauto))
    · rw [if_neg hi]
      exact hB

/-- Python `max` returns an element of its inputs. -/
theorem pyMaxBy_mem (key : String → Nat × Nat) :
    ∀ (xs : List String) (x : String), pyMaxBy key x xs ∈ x :: xs := by
  intro xs
  induction xs with
  | nil => intro x; exact List.mem_cons_self x []
  | cons c cs ih =>
    intro x
    have hstep : pyMaxBy key x (c :: cs) =
        pyMaxBy key (if tupleLt (key x) (key c) then c else x) cs := rfl
    rw [hstep]
    rcases List.mem_cons.mp (ih (if tupleLt (key x) (key c) then c else x))
      with h1 | h1
    · rw [h1]
      by_cases ht : tupleLt (key x) (key c) = true
      · rw [if_pos ht]
        exact List.mem_cons_of_mem _ (List.mem_cons_self _ _)
      · rw [if_neg ht]
        exact List.mem_cons_self _ _
    · exact List.mem_cons_of_mem _ (List.mem_cons_of_mem _ h1)

/-- `_pick_best` returns a sublist of its input. -/
theorem pickBest_P {P : String → Prop} (lines : List String) (w : String)
    (hl : ∀ ln ∈ lines, P ln) : ∀ ln ∈ pickBest lines w, P ln := by
  rcases lines with _ | ⟨x, _ | ⟨y, ys⟩⟩
  · intro ln h; simp [pickBest] at h
  · intro ln h
    rw [pickBest] at h
    rw [List.mem_singleton.mp h]
    exact hl x (List.mem_cons_self x [])
  · intro ln h
    have hpb : pickBest (x :: y :: ys) w =
        if w = "CPU" then [pyMaxBy scoreCpu x (y :: ys)]
        else if w = "HW" then [pyMaxBy scoreHw x (y :: ys)]
        else [x] := rfl
    rw [hpb] at h
    by_cases hc : w = "CPU"
    · rw [if_pos hc] at h
      rw [List.mem_singleton.mp h]
      exact hl _ (pyMaxBy_mem scoreCpu (y :: ys) x)
    · rw [if_neg hc] at h
      by_cases hh : w = "HW"
      · rw [if_pos hh] at h
        rw [List.mem_singleton.mp h]
        exact hl _ (pyMaxBy_mem scoreHw (y :: ys) x)
      · rw [if_neg hh] at h
        rw [List.mem_singleton.mp h]
        exact hl x (List.mem_cons_self x _)

/-- `emit_block` emits previous output, an empty separator, or deduped
nonblank input lines. -/
theorem emitBlock_P {P : String → Prop} (hP0 : P "")
    (out lines : List String) (hout : ∀ ln ∈ out, P ln)
    (hlines : ∀ ln ∈ lines, P ln) : ∀ ln ∈ emitBlock out lines, P ln := by
  intro ln hln
  have hl2 : ∀ m ∈ dedupeLines (lines.filter (fun x => pyStrip x ≠ "")),
      P m := by
    intro m hm
    exact hlines m
      (List.mem_of_mem_filter (mem_of_mem_dedupeNorm _ _ _ hm))
  rw [emitBlock] at hln
  by_cases he :
      (dedupeLines (lines.filter (fun x => pyStrip x ≠ ""))).isEmpty = true
  · rw [if_pos he] at hln
    exact hout ln hln
  rw [if_neg he] at hln
  rcases hg : out.getLast? with _ | last
  · rw [hg] at hln
    exact hl2 ln hln
  · rw [hg] at hln
    dsimp only at hln
    by_cases hb : last = ""
    · rw [if_pos hb] at hln
      rcases List.mem_append.mp hln with h | h
      · exact hout ln h
      · exact hl2 ln h
    · rw [if_neg hb] at hln
      rcases List.mem_append.mp hln with h | h
      · rcases List.mem_append.mp h with h2 | h2
        · exact hout ln h2
        · rw [List.mem_singleton.mp h2]
          exact hP0
      · exact hl2 ln h

/-- The full emission respects any bucket line predicate that tolerates
the empty separator. -/
theorem emitBuckets_P {P : String → Prop} (hP0 : P "") (B : Buckets)
    (hB : BucketsP P B) : ∀ ln ∈ emitBuckets B, P ln := by
  have hf : ∀ l : List String,
      (∀ m ∈ bucketLines B, m ∈ l → True) → True := fun _ _ => trivial
  have hbug : ∀ ln ∈ B.bug, P ln := fun ln h =>
    hB ln (by simp only [bucketLines, List.mem_append]; tauto)
  have hrw : ∀ ln ∈ B.rw, P ln := fun ln h =>
    hB ln (by simp only [bucketLines, List.mem_append]; tauto)
  have hcpu : ∀ ln ∈ B.cpu, P ln := fun ln h =>
    hB ln (by simp only [bucketLines, List.mem_append]; tauto)
  have hhw : ∀ ln ∈ B.hw, P ln := fun ln h =>
    hB ln (by simp only [bucketLines, List.mem_append]; tauto)
  have hct : ∀ ln ∈ B.calltrace, P ln := fun ln h =>
    hB ln (by simp only [bucketLines, List.mem_append]; tauto)
  have hal : ∀ ln ∈ B.alloc, P ln := fun ln h =>
    hB ln (by simp only [bucketLines, List.mem_append]; tauto)
  have hfr : ∀ ln ∈ B.freed, P ln := fun ln h =>
    hB ln (by simp only [bucketLines, List.mem_append]; tauto)
  have hbgy : ∀ ln ∈ B.buggy, P ln := fun ln h =>
    hB ln (by simp only [bucketLines, List.mem_append]; tauto)
  have hmem : ∀ ln ∈ B.mem, P ln := fun ln h =>
    hB ln (by simp only [bucketLines, List.mem_append]; tauto)
  have hpg : ∀ ln ∈ B.page, P ln := fun ln h =>
    hB ln (by simp only [bucketLines, List.mem_append]; tauto)
  have hrip : ∀ ln ∈ B.ripcode, P ln := fun ln h =>
    hB ln (by simp only [bucketLines, List.mem_append]; tauto)
  have hrg : ∀ ln ∈ B.regs, P ln := fun ln h =>
    hB ln (by simp only [bucketLines, List.mem_append]; tauto)
  have hrb : ∀ ln ∈ B.reboot, P ln := fun ln h =>
    hB ln (by simp only [bucketLines, List.mem_append]; tauto)
  have hot : ∀ ln ∈ B.other, P ln := fun ln h =>
    hB ln (by simp only [bucketLines, List.mem_append]; tauto)
  rw [emitBuckets]
  refine emitBlock_P hP0 _ _ ?_ hot
  refine emitBlock_P hP0 _ _ ?_ hrb
  refine emitBlock_P hP0 _ _ ?_ hrg
  refine emitBlock_P hP0 _ _ ?_ hrip
  refine emitBlock_P hP0 _ _ ?_ hpg
  refine emitBlock_P hP0 _ _ ?_ hmem
  refine emitBlock_P hP0 _ _ ?_ hbgy
  refine emitBlock_P hP0 _ _ ?_ hfr
  refine emitBlock_P hP0 _ _ ?_ hal
  refine emitBlock_P hP0 _ _ ?_ hct
  refine emitBlock_P hP0 _ _ ?_ (pickBest_P B.hw "HW" hhw)
  refine emitBlock_P hP0 _ _ ?_ (pickBest_P B.cpu "CPU" hcpu)
  refine emitBlock_P hP0 _ _ ?_ hrw
  refine emitBlock_P hP0 _ _ ?_ hbug
  intro ln h
  simp at h

/-- `emit_block` output lines are nonblank or exactly empty, regardless
of the bucket content. -/
theorem emitBlock_blank (out lines : List String)
    (hout : ∀ ln ∈ out, pyStrip ln ≠ "" ∨ ln = "") :
    ∀ ln ∈ emitBlock out lines, pyStrip ln ≠ "" ∨ ln = "" := by
  intro ln hln
  have hl2 : ∀ m ∈ dedupeLines (lines.filter (fun x => pyStrip x ≠ "")),
      pyStrip m ≠ "" ∨ m = "" := by
    intro m hm
    left
    have hf := List.of_mem_filter (mem_of_mem_dedupeNorm _ _ _ hm)
    simpa using hf
  rw [emitBlock] at hln
  by_cases he :
      (dedupeLines (lines.filter (fun x => pyStrip x ≠ ""))).isEmpty = true
  · rw [if_pos he] at hln
    exact hout ln hln
  rw [if_neg he] at hln
  rcases hg : out.getLast? with _ | last
  · rw [hg] at hln
    exact hl2 ln hln
  · rw [hg] at hln
    dsimp only at hln
    by_cases hb : last = ""
    · rw [if_pos hb] at hln
      rcases List.mem_append.mp hln with h | h
      · exact hout ln h
      · exact hl2 ln h
    · rw [if_neg hb] at hln
      rcases List.mem_append.mp hln with h | h
      · rcases List.mem_append.mp h with h2 | h2
        · exact hout ln h2
        · right
          exact List.mem_singleton.mp h2
      · exact hl2 ln h

/-- Every emitted line is nonblank or exactly empty. -/
theorem emitBuckets_blank (B : Buckets) :
    ∀ ln ∈ emitBuckets B, pyStrip ln ≠ "" ∨ ln = "" := by
  rw [emitBuckets]
  refine emitBlock_blank _ _ ?_
  refine emitBlock_blank _ _ ?_
  refine emitBlock_blank _ _ ?_
  refine emitBlock_blank _ _ ?_
  refine emitBlock_blank _ _ ?_
  refine emitBlock_blank _ _ ?_
  refine emitBlock_blank _ _ ?_
  refine emitBlock_blank _ _ ?_
  refine emitBlock_blank _ _ ?_
  refine emitBlock_blank _ _ ?_
  refine emitBlock_blank _ _ ?_
  refine emitBlock_blank _ _ ?_
  refine emitBlock_blank _ _ ?_
  refine emitBlock_blank _ _ ?_
  intro ln h
  simp at h

/-- The tidy pass only keeps input lines. -/
theorem mem_tidyAux : ∀ (l : List String) (st : Bool) (ln : String),
    ln ∈ tidyAux st l → ln ∈ l := by
  intro l
  induction l with
  | nil => intro st ln h; simp [tidyAux] at h
  | cons a rest ih =>
    intro st ln h
    rw [tidyAux] at h
    by_cases h1 : isCTHeader a
    · rw [if_pos h1] at h
      rcases List.mem_cons.mp h with h2 | h2
      · rw [h2]; exact List.mem_cons_self a rest
      · exact List.mem_cons_of_mem a (ih true ln h2)
    rw [if_neg h1] at h
    by_cases h2 : st = true
    · rw [if_pos h2] at h
      rcases List.mem_cons.mp h with h3 | h3
      · rw [h3]; exact List.mem_cons_self a rest
      · exact List.mem_cons_of_mem a (ih _ ln h3)
    rw [if_neg h2] at h
    by_cases h3 : (isTOpen a || isTEnd a) = true
    · rw [if_pos h3] at h
      exact List.mem_cons_of_mem a (ih false ln h)
    · rw [if_neg h3] at h
      rcases List.mem_cons.mp h with h4 | h4
      · rw [h4]; exact List.mem_cons_self a rest
      · exact List.mem_cons_of_mem a (ih false ln h4)

/-- Blank compression only keeps input lines or emits empty lines. -/
theorem mem_cleanAux : ∀ (l : List String) (pb ne : Bool) (ln : String),
    ln ∈ cleanAux pb ne l → ln ∈ l ∨ ln = "" := by
  intro l
  induction l with
  | nil => intro pb ne ln h; simp [cleanAux] at h
  | cons a rest ih =>
    intro pb ne ln h
    rw [cleanAux] at h
    by_cases h1 : pyStrip a ≠ ""
    · rw [if_pos h1] at h
      rcases List.mem_cons.mp h with h2 | h2
      · left; rw [h2]; exact List.mem_cons_self a rest
      · rcases ih false true ln h2 with h3 | h3
        · left; exact List.mem_cons_of_mem a h3
        · right; exact h3
    rw [if_neg h1] at h
    by_cases h2 : (!pb && ne) = true
    · rw [if_pos h2] at h
      rcases List.mem_cons.mp h with h3 | h3
      · right; exact h3
      · rcases ih true ne ln h3 with h4 | h4
        · left; exact List.mem_cons_of_mem a h4
        · right; exact h4
    · rw [if_neg h2] at h
      rcases ih true ne ln h with h3 | h3
      · left; exact List.mem_cons_of_mem a h3
      · right; exact h3

/-- Leading-empty removal keeps only input lines. -/
theorem mem_dropLeadEmpty (l : List String) (ln : String)
    (h : ln ∈ dropLeadEmpty l) : ln ∈ l :=
  (List.dropWhile_suffix _).subset h

/-- Trailing-empty removal keeps only input lines. -/
theorem mem_dropTrailEmpty (l : List String) (ln : String)
    (h : ln ∈ dropTrailEmpty l) : ln ∈ l := by
  unfold dropTrailEmpty at h
  rw [List.mem_reverse] at h
  exact List.mem_reverse.mp ((List.dropWhile_suffix _).subset h)

/-- After trailing-empty removal the last line is never empty. -/
theorem dropTrailEmpty_getLast (l : List String) :
    (dropTrailEmpty l).getLast? ≠ some "" := by
  unfold dropTrailEmpty
  rw [List.getLast?_reverse]
  rcases hd : l.reverse.dropWhile (· = "") with _ | ⟨z, zs⟩
  · simp
  · intro hcon
    simp only [List.head?_cons, Option.some.injEq] at hcon
    have hz := dropWhile_head_false _ _ _ _ hd
    rw [hcon] at hz
    simp at hz

/-- A nonempty prefix pins down the head of the list. -/
theorem listPrefix_head (n0 : Char) (ns l : List Char)
    (h : listPrefix (n0 :: ns) l = true) : ∃ t, l = n0 :: t := by
  cases l with
  | nil => simp [listPrefix] at h
  | cons b bs =>
    rw [listPrefix, Bool.and_eq_true] at h
    rcases h with ⟨hb, -⟩
    exact ⟨bs, by rw [beq_iff_eq.mp hb]⟩

/-- Task markers never look like a `Call Trace:` header. -/
theorem marker_not_ctheader (ln : String)
    (h : isTOpen ln = true ∨ isTEnd ln = true) : isCTHeader ln = false := by
  by_contra hcon
  rw [Bool.not_eq_false, isCTHeader, Bool.and_eq_true] at hcon
  rcases hcon with ⟨hc, -⟩
  rcases listPrefix_head _ _ _ hc with ⟨t, ht⟩
  rcases h with h | h
  · rw [isTOpen, Bool.and_eq_true] at h
    rcases h with ⟨ho, -⟩
    rcases listPrefix_head _ _ _ ho with ⟨t2, ht2⟩
    rw [ht] at ht2
    injection ht2 with hh
    exact absurd hh (by decide)
  · rw [isTEnd, Bool.and_eq_true] at h
    rcases h with ⟨ho, -⟩
    rcases listPrefix_head _ _ _ ho with ⟨t2, ht2⟩
    rw [ht] at ht2
    injection ht2 with hh
    exact absurd hh (by decide)

/-- A `true` final state means an open region: the run either opened a
region at a late `Call Trace:` header with no `</TASK>` after it, or
started in an open region that no `</TASK>` ever closed. -/
theorem scanSt_char : ∀ (pre : List String) (st : Bool),
    scanSt st pre = true →
    (st = true ∧ ∀ m ∈ pre, isTEnd m = false) ∨
    (∃ (pre1 : List String) (ctln : String) (mid : List String),
      pre = pre1 ++ ctln :: mid ∧ isCTHeader ctln = true ∧
      ∀ m ∈ mid, isTEnd m = false) := by
  intro pre
  induction pre with
  | nil => intro st h; left; exact ⟨h, by intro m hm; simp at hm⟩
  | cons a t ih =>
    intro st h
    rw [scanSt] at h
    by_cases h1 : isCTHeader a
    · rw [if_pos h1] at h
      rcases ih true h with ⟨-, hno⟩ | ⟨pre1, ctln, mid, he, hct, hno⟩
      · right
        exact ⟨[], a, t, rfl, h1, hno⟩
      · right
        exact ⟨a :: pre1, ctln, mid, by rw [he, List.cons_append], hct, hno⟩
    rw [if_neg h1] at h
    by_cases h2 : (isTOpen a || isTEnd a) = true
    · rw [if_pos h2] at h
      by_cases h3 : isTEnd a = true
      · rw [if_pos h3] at h
        rcases ih false h with ⟨hf, -⟩ | ⟨pre1, ctln, mid, he, hct, hno⟩
        · exact absurd hf (by decide)
        · right
          exact ⟨a :: pre1, ctln, mid, by rw [he, List.cons_append], hct, hno⟩
      · rw [if_neg h3] at h
        rcases ih st h with ⟨hst, hno⟩ | ⟨pre1, ctln, mid, he, hct, hno⟩
        · left
          refine ⟨hst, ?_⟩
          intro m hm
          rcases List.mem_cons.mp hm with hm1 | hm1
          · rw [hm1]
            exact Bool.eq_false_iff.mpr h3
          · exact hno m hm1
        · right
          exact ⟨a :: pre1, ctln, mid, by rw [he, List.cons_append], hct, hno⟩
    · rw [if_neg h2] at h
      have h3 : isTEnd a = false := by
        rcases Bool.or_eq_false_iff.mp (by simpa using h2) with ⟨-, hx⟩
        exact hx
      rcases ih st h with ⟨hst, hno⟩ | ⟨pre1, ctln, mid, he, hct, hno⟩
      · left
        refine ⟨hst, ?_⟩
        intro m hm
        rcases List.mem_cons.mp hm with hm1 | hm1
        · rw [hm1]; exact h3
        · exact hno m hm1
      · right
        exact ⟨a :: pre1, ctln, mid, by rw [he, List.cons_append], hct, hno⟩

/-- In an accepted list, the automaton is in an open region at every
task-marker line. -/
theorem scanOk_mid (L : List String) (st : Bool) (hL : scanOk st L = true)
    (pre : List String) (ln : String) (post : List String)
    (he : L = pre ++ ln :: post)
    (hm : isTOpen ln = true ∨ isTEnd ln = true) : scanSt st pre = true := by
  rw [he, scanOk_append, Bool.and_eq_true] at hL
  rcases hL with ⟨-, h2⟩
  rw [scanOk, if_neg (by rw [marker_not_ctheader ln hm]; simp)] at h2
  rw [if_pos (by rcases hm with h | h <;> simp [h])] at h2
  rw [Bool.and_eq_true] at h2
  exact h2.1

/-- Task-marker containment: every `<TASK>`/`</TASK>` line of a line
list appears after some `Call Trace:` line with no `</TASK>` line
strictly between that header and it. -/
def MarkerContained (L : List String) : Prop :=
  ∀ (pre : List String) (ln : String) (post : List String),
    L = pre ++ ln :: post → (isTOpen ln = true ∨ isTEnd ln = true) →
    ∃ (pre1 : List String) (ctln : String) (mid : List String),
      pre = pre1 ++ ctln :: mid ∧ isCTHeader ctln = true ∧
      ∀ m ∈ mid, isTEnd m = false

/-- Acceptance by the region automaton from a closed initial state
yields task-marker containment. -/
theorem scanOk_markerContained (L : List String)
    (h : scanOk false L = true) : MarkerContained L := by
  intro pre ln post he hm
  rcases scanSt_char pre false (scanOk_mid L false h pre ln post he hm) with
    ⟨hf, -⟩ | hdec
  · exact absurd hf (by decide)
  · exact hdec

/-- The whole post-bucketing pipeline of `order_normalize` — emission,
tidy pass, blank compression, boundary trims, join, and re-split —
yields a task-marker-contained line list, for any boundary-free
candidate lines. -/
theorem markerContained_pipeline (raw : List String)
    (hraw : ∀ ln ∈ raw, ∀ c ∈ ln.data, pyLineBreak c = false)
    (blocks : List (List Nat)) (n fuel i : Nat) (ct : List Nat) :
    MarkerContained (pySplitlines (String.intercalate "\n"
      (dropTrailEmpty (dropLeadEmpty (cleanAux false false
        (tidyAux false (emitBuckets
          (buckAux raw n ct fuel i
            { calltrace := placeCT raw blocks })))))))) := by
  have hP0 : ∀ c ∈ ("" : String).data, pyLineBreak c = false := by
    intro c hc
    simp at hc
  have hB1 : BucketsP (fun ln => ∀ c ∈ ln.data, pyLineBreak c = false)
      { calltrace := placeCT raw blocks } := by
    intro ln h
    simp only [bucketLines, List.append_nil, List.nil_append] at h
    exact placeCT_P raw hraw hP0 blocks ln h
  have hB2 := buckAux_P raw n ct hraw hP0 fuel i _ hB1
  have hout := emitBuckets_P hP0 _ hB2
  have hfinP : ∀ ln ∈ tidyAux false (emitBuckets
      (buckAux raw n ct fuel i { calltrace := placeCT raw blocks })),
      ∀ c ∈ ln.data, pyLineBreak c = false :=
    fun ln h => hout ln (mem_tidyAux _ false ln h)
  have hcleanP : ∀ ln ∈ cleanAux false false (tidyAux false (emitBuckets
      (buckAux raw n ct fuel i { calltrace := placeCT raw blocks }))),
      ∀ c ∈ ln.data, pyLineBreak c = false := by
    intro ln h
    rcases mem_cleanAux _ false false ln h with h2 | h2
    · exact hfinP ln h2
    · rw [h2]
      exact hP0
  have hbf : ∀ ln ∈ dropTrailEmpty (dropLeadEmpty (cleanAux false false
      (tidyAux false (emitBuckets
        (buckAux raw n ct fuel i { calltrace := placeCT raw blocks }))))),
      ∀ c ∈ ln.data, pyLineBreak c = false :=
    fun ln h =>
      hcleanP ln (mem_dropLeadEmpty _ _ (mem_dropTrailEmpty _ _ h))
  have hblank : ∀ ln ∈ tidyAux false (emitBuckets
      (buckAux raw n ct fuel i { calltrace := placeCT raw blocks })),
      pyStrip ln ≠ "" ∨ ln = "" :=
    fun ln h => emitBuckets_blank _ ln (mem_tidyAux _ false ln h)
  have hs1 := scanOk_tidyAux (emitBuckets
    (buckAux raw n ct fuel i { calltrace := placeCT raw blocks })) false
  have hs2 := scanOk_cleanAux _ false false false hblank hs1
  have hs3 := scanOk_dropLeadEmpty _ false hs2
  have hs4 := scanOk_dropTrailEmpty _ false hs3
  rw [pySplitlines_intercalate _ hbf (dropTrailEmpty_getLast _)]
  exact scanOk_markerContained _ hs4

/-- **C10.** Task-marker containment in the orderer's output: for every
input text, every line of `order_normalize`'s output matching `<TASK>`
or `</TASK>` occurs only inside a call-trace region — it appears after
some `Call Trace:` line of the output, with no `</TASK>` line strictly
between that header and it; stray task markers outside such a region
are dropped by the tidy pass and never reach the output. -/
theorem order_normalize_task_markers (x : String) :
    MarkerContained (pySplitlines (order_normalize x)) := by
  by_cases hx : x = ""
  · rw [hx]
    have h0 : pySplitlines (order_normalize "") = [] := rfl
    rw [h0]
    intro pre ln post he hm
    simp at he
  · rw [order_normalize, if_neg hx]
    have hraw : ∀ ln ∈ (pySplitlines x).map rstripCR,
        ∀ c ∈ ln.data, pyLineBreak c = false := by
      rw [map_rstripCR_splitlines]
      exact pySplitlines_no_break x
    exact markerContained_pipeline _ hraw _ _ _ _ _
